import Mathlib

/-!
  Verification of the import-graph core of the `scaffold` repository.

  The development shallowly embeds the TypeScript source:

  * `src/models/graph.ts` — `ImportGraph` and its operations.  The JS `Map`
    (insertion-ordered, unique keys) is modelled as an ordered `List FileNode`;
    `Map.set` on an absent key is an append, reading is `List.find?` on the
    `filePath` key, and in-place mutation of the node object stored under a
    key is `updateNode` (a map over the list that rewrites the entries whose
    key matches — with unique keys this is exactly one entry).
  * `src/parsers/typescriptParser.ts` — `resolveRelativeImport`.  The
    filesystem is abstracted as two boolean oracles (`ex` for
    `fs.existsSync`, `isf` for `fs.statSync(..).isFile()`); the TypeScript
    compiler front end is abstracted as a parse oracle
    `String → Option ParsedFile` (a `null` parse result is `none`).
  * `src/analyzers/importGraphBuilder.ts` — `processFile`, `buildGraph`,
    `updateFile`, `removeFile`.
  * `src/watchers/fileWatcher.ts` — the pending-update / pending-delete sets
    and `flushUpdates` (JS `Set` modelled as an insertion-ordered list
    without duplicates; the `shouldIgnore` predicate is an oracle).
  * `src/views/ScaffoldViewProvider.ts` — the `isAnalyzing` guard of
    `runAnalysis`.

  JS strings are modelled by `String` acting on `.data` (a `List Char`);
  `replace(/\\/g, '/')` is a character map, `slice(k)` is `List.drop k`.
  `Math.round(x)` for non-negative `x` is `⌊x + 1/2⌋`, embedded over exact
  rational arithmetic as `jsRound100`.  `localeCompare`-based sorting is
  modelled as a stable sort (insertion sort) by code-point order.
-/

/-- Metrics of a node, from `FileMetrics` in `src/models/types.ts`. -/
structure FileMetrics where
  inDegree : Nat
  outDegree : Nat
  isLeaf : Bool
  isLoadBearing : Bool
  importanceScore : Nat
deriving DecidableEq

/-- A node of the import graph, from `FileNode` in `src/models/types.ts`. -/
structure FileNode where
  filePath : String
  relativePath : String
  imports : List String
  importedBy : List String
  metrics : FileMetrics
deriving DecidableEq

/-- The graph: `workspaceRoot` plus the insertion-ordered node map of
`src/models/graph.ts`. -/
structure ImportGraph where
  workspaceRoot : String
  nodes : List FileNode
deriving DecidableEq

/-- `filePath.replace(/\\/g, '/')` — backslashes become slashes. -/
def jsNormalize (s : String) : String :=
  ⟨s.data.map (fun c => if c = '\\' then '/' else c)⟩

/-- `String.prototype.startsWith`. -/
def jsStartsWith (s pre : String) : Bool :=
  pre.data.isPrefixOf s.data

/-- `String.prototype.slice(k)` (drop the first `k` code units). -/
def jsSliceFrom (s : String) (k : Nat) : String :=
  ⟨s.data.drop k⟩

/-- `ImportGraph.getRelativePath` from `src/models/graph.ts`. -/
def getRelativePath (workspaceRoot filePath : String) : String :=
  let normalized := jsNormalize filePath
  let rootNormalized := jsNormalize workspaceRoot
  if jsStartsWith normalized rootNormalized then
    jsSliceFrom normalized (rootNormalized.data.length + 1)
  else
    normalized

/-- The node freshly created by `ImportGraph.addNode`. -/
def newNode (workspaceRoot filePath : String) : FileNode :=
  { filePath := filePath
    relativePath := getRelativePath workspaceRoot filePath
    imports := []
    importedBy := []
    metrics :=
      { inDegree := 0, outDegree := 0, isLeaf := true
        isLoadBearing := false, importanceScore := 0 } }

/-- `new ImportGraph(workspaceRoot)` — the empty graph. -/
def ImportGraph.empty (workspaceRoot : String) : ImportGraph :=
  ⟨workspaceRoot, []⟩

/-- `this.nodes.get(filePath)` / `ImportGraph.getNode`. -/
def ImportGraph.getNode (g : ImportGraph) (filePath : String) : Option FileNode :=
  g.nodes.find? (fun n => n.filePath == filePath)

/-- In-place mutation of the node object stored under key `p` (a JS `Map`
holds each key once, so this rewrites exactly one entry). -/
def updateNode (nodes : List FileNode) (p : String) (f : FileNode → FileNode) :
    List FileNode :=
  nodes.map (fun n => if n.filePath = p then f n else n)

/-- `ImportGraph.addNode` from `src/models/graph.ts`. -/
def ImportGraph.addNode (g : ImportGraph) (filePath : String) : ImportGraph :=
  if (g.getNode filePath).isSome then g
  else { g with nodes := g.nodes ++ [newNode g.workspaceRoot filePath] }

/-- The importer half of `addEdge`: push `importedPath` if absent. -/
def pushImport (importedPath : String) (n : FileNode) : FileNode :=
  if importedPath ∈ n.imports then n
  else { n with imports := n.imports ++ [importedPath] }

/-- The imported half of `addEdge`: push `importerPath` if absent. -/
def pushImportedBy (importerPath : String) (n : FileNode) : FileNode :=
  if importerPath ∈ n.importedBy then n
  else { n with importedBy := n.importedBy ++ [importerPath] }

/-- `ImportGraph.addEdge` from `src/models/graph.ts`. -/
def ImportGraph.addEdge (g : ImportGraph) (importerPath importedPath : String) :
    ImportGraph :=
  let g1 := (g.addNode importerPath).addNode importedPath
  let g2 := { g1 with nodes := updateNode g1.nodes importerPath (pushImport importedPath) }
  { g2 with nodes := updateNode g2.nodes importedPath (pushImportedBy importerPath) }

/-- `imported.importedBy = imported.importedBy.filter(p => p !== filePath)`. -/
def scrubImportedBy (filePath : String) (n : FileNode) : FileNode :=
  { n with importedBy := n.importedBy.filter (fun q => q != filePath) }

/-- `importer.imports = importer.imports.filter(p => p !== filePath)`. -/
def scrubImports (filePath : String) (n : FileNode) : FileNode :=
  { n with imports := n.imports.filter (fun q => q != filePath) }

/-- `ImportGraph.removeNode` from `src/models/graph.ts`.  The first loop
scrubs `filePath` out of the `importedBy` of every node it imports; the
second loop re-reads the node (its own `importedBy` may have been rewritten
by the first loop when the file imports itself) and scrubs `filePath` out of
the `imports` of every importer; finally the node is deleted. -/
def ImportGraph.removeNode (g : ImportGraph) (filePath : String) : ImportGraph :=
  match g.getNode filePath with
  | none => g
  | some node =>
    let nodes1 := node.imports.foldl
      (fun ns p => updateNode ns p (scrubImportedBy filePath)) g.nodes
    let ib := match nodes1.find? (fun n => n.filePath == filePath) with
      | some n => n.importedBy
      | none => []
    let nodes2 := ib.foldl
      (fun ns p => updateNode ns p (scrubImports filePath)) nodes1
    { g with nodes := nodes2.filter (fun n => n.filePath != filePath) }

/-- `ImportGraph.clearEdgesFor` from `src/models/graph.ts`: scrub the file
out of its targets' `importedBy`, then empty its own `imports`. -/
def ImportGraph.clearEdgesFor (g : ImportGraph) (filePath : String) : ImportGraph :=
  match g.getNode filePath with
  | none => g
  | some node =>
    let nodes1 := node.imports.foldl
      (fun ns p => updateNode ns p (scrubImportedBy filePath)) g.nodes
    { g with nodes := updateNode nodes1 filePath (fun n => { n with imports := [] }) }

/-- `Math.max(1, ...nodes.map(n => n.importedBy.length))`. -/
def metricsMaxInDegree (g : ImportGraph) : Nat :=
  g.nodes.foldl (fun acc n => max acc n.importedBy.length) 1

/-- `Math.round((inDegree / maxInDegree) * 100)` over exact rationals:
`⌊100·i/m + 1/2⌋ = (200·i + m) / (2·m)` in natural division. -/
def jsRound100 (i m : Nat) : Nat :=
  (200 * i + m) / (2 * m)

/-- The loop body of `calculateMetrics`: the fresh metrics record assigned
to one node. -/
def metricsApply (maxInDegree : Nat) (n : FileNode) : FileNode :=
  { n with metrics :=
      { inDegree := n.importedBy.length
        outDegree := n.imports.length
        isLeaf := n.importedBy.length == 0
        isLoadBearing := decide (5 ≤ n.importedBy.length)
        importanceScore := jsRound100 n.importedBy.length maxInDegree } }

/-- `ImportGraph.calculateMetrics` from `src/models/graph.ts`: the global
maximum in-degree (floored at 1) is computed once, then every node's
metrics record is rewritten from its current edge lists. -/
def ImportGraph.calculateMetrics (g : ImportGraph) : ImportGraph :=
  { g with nodes := g.nodes.map (metricsApply (metricsMaxInDegree g)) }

/-- `ImportGraph.getAllNodes`. -/
def ImportGraph.getAllNodes (g : ImportGraph) : List FileNode :=
  g.nodes

/-- `ImportGraph.getFileCount`. -/
def ImportGraph.getFileCount (g : ImportGraph) : Nat :=
  g.nodes.length

/-- Lexicographic (code-point) comparison of character lists. -/
def charListLe : List Char → List Char → Bool
  | [], _ => true
  | _ :: _, [] => false
  | a :: as, b :: bs => if a = b then charListLe as bs else decide (a < b)

/-- `a.localeCompare(b) ≤ 0`, modelled as code-point lexicographic order. -/
def jsLocaleLe (a b : String) : Bool :=
  charListLe a.data b.data

/-- The comparator of `getLeafFiles`:
`a.relativePath.localeCompare(b.relativePath)` non-positive. -/
def leafLe (a b : FileNode) : Prop :=
  jsLocaleLe a.relativePath b.relativePath = true

instance : DecidableRel leafLe := fun a b =>
  inferInstanceAs (Decidable (jsLocaleLe a.relativePath b.relativePath = true))

instance : IsTotal FileNode leafLe := ⟨by
  intro a b
  unfold leafLe jsLocaleLe
  generalize a.relativePath.data = as
  generalize b.relativePath.data = bs
  induction as generalizing bs with
  | nil => exact Or.inl rfl
  | cons x xs ih =>
    cases bs with
    | nil => exact Or.inr rfl
    | cons y ys =>
      by_cases hxy : x = y
      · subst hxy
        simp only [charListLe, if_pos rfl]
        exact ih ys
      · rcases lt_or_gt_of_ne hxy with hlt | hgt
        · exact Or.inl (by
            simp only [charListLe, if_neg hxy]
            exact decide_eq_true hlt)
        · exact Or.inr (by
            simp only [charListLe, if_neg (fun h : y = x => hxy h.symm)]
            exact decide_eq_true hgt)⟩

instance : IsTrans FileNode leafLe := ⟨by
  intro a b c
  unfold leafLe jsLocaleLe
  generalize a.relativePath.data = as
  generalize b.relativePath.data = bs
  generalize c.relativePath.data = cs
  induction as generalizing bs cs with
  | nil => exact fun _ _ => rfl
  | cons x xs ih =>
    intro h1 h2
    cases bs with
    | nil => simp [charListLe] at h1
    | cons y ys =>
      cases cs with
      | nil => simp [charListLe] at h2
      | cons z zs =>
        by_cases hxy : x = y
        · subst hxy
          simp only [charListLe, if_pos rfl] at h1
          by_cases hyz : x = z
          · subst hyz
            simp only [charListLe, if_pos rfl] at h2 ⊢
            exact ih ys zs h1 h2
          · simp only [charListLe, if_neg hyz] at h2 ⊢
            exact h2
        · simp only [charListLe, if_neg hxy] at h1
          have hlt1 : x < y := of_decide_eq_true h1
          by_cases hyz : y = z
          · subst hyz
            simp only [charListLe, if_neg hxy]
            exact h1
          · simp only [charListLe, if_neg hyz] at h2
            have hlt2 : y < z := of_decide_eq_true h2
            have hxz : x < z := lt_trans hlt1 hlt2
            simp only [charListLe, if_neg (ne_of_lt hxz)]
            exact decide_eq_true hxz⟩

/-- `ImportGraph.getLeafFiles`: the `isLeaf` nodes, sorted by relative path
(`Array.prototype.sort` is a stable sort; insertion sort is stable). -/
def ImportGraph.getLeafFiles (g : ImportGraph) : List FileNode :=
  (g.getAllNodes.filter (fun n => n.metrics.isLeaf)).insertionSort leafLe

/-- The serialized form returned by `ImportGraph.serialize`. -/
structure SerializedGraph where
  nodes : List FileNode
  workspaceRoot : String
deriving DecidableEq

/-- `ImportGraph.serialize`. -/
def ImportGraph.serialize (g : ImportGraph) : SerializedGraph :=
  ⟨g.getAllNodes, g.workspaceRoot⟩

/-- `Map.prototype.set`: overwrite in place if the key exists, else append. -/
def mapSet (nodes : List FileNode) (node : FileNode) : List FileNode :=
  if nodes.any (fun n => n.filePath == node.filePath) then
    nodes.map (fun n => if n.filePath = node.filePath then node else n)
  else nodes ++ [node]

/-- `ImportGraph.deserialize`. -/
def ImportGraph.deserialize (data : SerializedGraph) : ImportGraph :=
  ⟨data.workspaceRoot, data.nodes.foldl mapSet []⟩

/-! ### Mutation sequences (for the edge-symmetry invariant) -/

/-- One mutating call on the graph. -/
inductive GraphOp where
  | addEdge (importerPath importedPath : String)
  | removeNode (filePath : String)
  | clearEdgesFor (filePath : String)

/-- Apply one `GraphOp`. -/
def applyOp (g : ImportGraph) : GraphOp → ImportGraph
  | GraphOp.addEdge a b => g.addEdge a b
  | GraphOp.removeNode p => g.removeNode p
  | GraphOp.clearEdgesFor p => g.clearEdgesFor p

/-- Apply a call sequence left to right. -/
def applyOps (g : ImportGraph) (ops : List GraphOp) : ImportGraph :=
  ops.foldl applyOp g

/-- `B ∈ A.outgoing`: the graph has a node for `A` whose `imports` list
contains `B`. -/
def hasImport (g : ImportGraph) (A B : String) : Prop :=
  ∃ n ∈ g.nodes, n.filePath = A ∧ B ∈ n.imports

/-- `A ∈ B.incoming`: the graph has a node for `B` whose `importedBy` list
contains `A`. -/
def hasImportedBy (g : ImportGraph) (B A : String) : Prop :=
  ∃ n ∈ g.nodes, n.filePath = B ∧ A ∈ n.importedBy

/-- Edge symmetry of a graph state. -/
def EdgeSym (g : ImportGraph) : Prop :=
  ∀ A B, hasImport g A B ↔ hasImportedBy g B A

/-- The node map holds each file path at most once (a JS `Map` property). -/
def KeysNodup (g : ImportGraph) : Prop :=
  (g.nodes.map FileNode.filePath).Nodup

/-- The `importedBy` scrub applied by the first loop of `clearEdgesFor X`
and `removeNode X`, as a whole-map step over the target list `imps`. -/
def scrubStep (X : String) (imps : List String) (n : FileNode) : FileNode :=
  if n.filePath ∈ imps then scrubImportedBy X n else n

/-- The emptying of `X`'s own `imports` as a whole-map step. -/
def clearOwnStep (X : String) (n : FileNode) : FileNode :=
  if n.filePath = X then { n with imports := [] } else n

/-- Composed per-node effect of `clearEdgesFor X`. -/
def clearNodeTransform (X : String) (imps : List String) (n : FileNode) : FileNode :=
  clearOwnStep X (scrubStep X imps n)

/-- The importer side of `addEdge a b` as a whole-map step. -/
def importerStep (a b : String) (n : FileNode) : FileNode :=
  if n.filePath = a then pushImport b n else n

/-- The imported side of `addEdge a b` as a whole-map step. -/
def importedStep (a b : String) (n : FileNode) : FileNode :=
  if n.filePath = b then pushImportedBy a n else n

/-- Per-node effect of `addEdge a b` (proof-side characterization): first
the importer's push of `b` into `imports`, then the imported file's push
of `a` into `importedBy`. -/
def addEdgeTransform (a b : String) (n : FileNode) : FileNode :=
  importedStep a b (importerStep a b n)

/-- The `importedBy` list of `X` re-read between the two loops of
`removeNode X` (the first loop may have scrubbed it when `X` imports
itself). -/
def ibOf (X : String) (nX : FileNode) : List String :=
  if X ∈ nX.imports then nX.importedBy.filter (fun q => q != X) else nX.importedBy

/-- The `imports` scrub applied by the second loop of `removeNode X`, as a
whole-map step over the importer list `ib`. -/
def scrubImportsStep (X : String) (ib : List String) (n : FileNode) : FileNode :=
  if n.filePath ∈ ib then scrubImports X n else n

/-- Composed per-node effect of the two loops of `removeNode X`. -/
def removeNodeTransform (X : String) (imps ib : List String) (n : FileNode) : FileNode :=
  scrubImportsStep X ib (scrubStep X imps n)

/-! ### Parser and resolver (`src/parsers/typescriptParser.ts`) -/

/-- `ImportInfo` from `src/models/types.ts`. -/
structure ImportInfo where
  source : String
  resolvedPath : Option String
  isExternal : Bool
  isTypeOnly : Bool
  importedNames : List String
  hasDefault : Bool
  hasNamespace : Bool
deriving DecidableEq

/-- `ExportInfo` from `src/models/types.ts`. -/
structure ExportInfo where
  name : String
  isDefault : Bool
  isType : Bool
deriving DecidableEq

/-- `ParsedFile` from `src/models/types.ts`. -/
structure ParsedFile where
  filePath : String
  imports : List ImportInfo
  exports : List ExportInfo
  hasJsx : Bool
deriving DecidableEq

/-- The first loop of `resolveRelativeImport`: for each extension in order,
accept `basePath + ext` when it exists and is a regular file. -/
def tryExts (ex isf : String → Bool) (basePath : String) : List String → Option String
  | [] => none
  | ext :: rest =>
    let fullPath := basePath ++ ext
    if ex fullPath && isf fullPath then some fullPath else tryExts ex isf basePath rest

/-- The second loop of `resolveRelativeImport`: for each extension in order,
accept `basePath + "/index" + ext` when it exists (note: the source checks
only `fs.existsSync` here, without the `isFile` stat). -/
def tryIndex (ex : String → Bool) (basePath : String) : List String → Option String
  | [] => none
  | ext :: rest =>
    let indexPath := basePath ++ "/index" ++ ext
    if ex indexPath then some indexPath else tryIndex ex basePath rest

/-- `TypeScriptParser.resolveRelativeImport`, over the filesystem oracles
`ex` (`fs.existsSync`) and `isf` (`fs.statSync(..).isFile()`), applied to
the already-resolved candidate base path (`path.resolve(fromDir, source)`).
The extension list is the source's `['.ts', '.tsx', '.js', '.jsx', '']`. -/
def resolveRelativeImport (ex isf : String → Bool) (basePath : String) : Option String :=
  match tryExts ex isf basePath [".ts", ".tsx", ".js", ".jsx", ""] with
  | some p => some p
  | none => tryIndex ex basePath [".ts", ".tsx", ".js", ".jsx"]

/-- Modelled from the spec's words (refinement comparison for the
file-resolution ordering contract, spec §4.1): try the bare path first,
then each extension appended, then each index candidate; in every tier the
candidate must exist on the filesystem as a regular file. -/
def resolveRelativeImport_specOrdering (ex isf : String → Bool) (basePath : String) :
    Option String :=
  (([basePath] ++ [".ts", ".tsx", ".js", ".jsx"].map (fun e => basePath ++ e))
    ++ [".ts", ".tsx", ".js", ".jsx"].map (fun e => basePath ++ "/index" ++ e)).find?
    (fun p => ex p && isf p)

/-! ### Builder (`src/analyzers/importGraphBuilder.ts`) -/

/-- `ImportGraphBuilder.processFile`: a failed parse (`null`) contributes
nothing; otherwise ensure the node exists and add one edge per local import
that carries a resolved path. -/
def processFile (parse : String → Option ParsedFile) (g : ImportGraph)
    (filePath : String) : ImportGraph :=
  match parse filePath with
  | none => g
  | some parsed =>
    let g1 := g.addNode filePath
    parsed.imports.foldl
      (fun acc importInfo =>
        if importInfo.isExternal then acc
        else
          match importInfo.resolvedPath with
          | some resolved => acc.addEdge filePath resolved
          | none => acc)
      g1

/-- `ImportGraphBuilder.buildGraph`: fresh graph, process every enumerated
file, then one metrics pass.  (Progress reporting is external and omitted.) -/
def buildGraph (workspaceRoot : String) (files : List String)
    (parse : String → Option ParsedFile) : ImportGraph :=
  ((files.foldl (processFile parse) (ImportGraph.empty workspaceRoot))).calculateMetrics

/-- `ImportGraphBuilder.updateFile`: clear the file's outgoing edges,
re-process it, recompute metrics. -/
def updateFile (parse : String → Option ParsedFile) (g : ImportGraph)
    (filePath : String) : ImportGraph :=
  ((processFile parse (g.clearEdgesFor filePath) filePath)).calculateMetrics

/-- `ImportGraphBuilder.removeFile`. -/
def removeFile (g : ImportGraph) (filePath : String) : ImportGraph :=
  (g.removeNode filePath).calculateMetrics

/-- `x` is a file whose successful parse carries a local import resolved to
`t`. -/
def importsTarget (parse : String → Option ParsedFile) (x t : String) : Prop :=
  ∃ pf, parse x = some pf ∧
    ∃ imp ∈ pf.imports, imp.isExternal = false ∧ imp.resolvedPath = some t

/-! ### File watcher (`src/watchers/fileWatcher.ts`) -/

/-- The watcher's pending sets plus the builder's graph (the part of the
builder state the flush mutates). -/
structure WatcherState where
  pendingUpdates : List String
  pendingDeletes : List String
  graph : ImportGraph
deriving DecidableEq

/-- `Set.prototype.add`: append if absent (insertion-ordered set). -/
def setAdd (l : List String) (x : String) : List String :=
  if x ∈ l then l else l ++ [x]

/-- `FileWatcher.handleCreate` (the `shouldIgnore` predicate is the oracle
`ignore`). -/
def handleCreate (ignore : String → Bool) (s : WatcherState) (f : String) : WatcherState :=
  if ignore f then s else { s with pendingUpdates := setAdd s.pendingUpdates f }

/-- `FileWatcher.handleChange` (same body as `handleCreate`). -/
def handleChange (ignore : String → Bool) (s : WatcherState) (f : String) : WatcherState :=
  if ignore f then s else { s with pendingUpdates := setAdd s.pendingUpdates f }

/-- `FileWatcher.handleDelete`: drop the file from the pending updates, add
it to the pending deletes. -/
def handleDelete (ignore : String → Bool) (s : WatcherState) (f : String) : WatcherState :=
  if ignore f then s
  else { s with
    pendingUpdates := s.pendingUpdates.filter (fun q => q != f)
    pendingDeletes := setAdd s.pendingDeletes f }

/-- `FileWatcher.flushUpdates`: snapshot and clear both sets, apply all
deletes (`removeFile`), then all updates (`updateFile`). -/
def flushUpdates (parse : String → Option ParsedFile) (s : WatcherState) : WatcherState :=
  let updates := s.pendingUpdates
  let deletes := s.pendingDeletes
  let g1 := deletes.foldl removeFile s.graph
  let g2 := updates.foldl (updateFile parse) g1
  ⟨[], [], g2⟩

/-! ### In-flight build model (`ImportGraphBuilder` + `ScaffoldViewProvider`) -/

/-- The builder with an explicit in-flight full build: `pending = some fs`
means `buildGraph` has started and the files `fs` are still unprocessed.
The class itself holds no in-progress flag. -/
structure BuilderState where
  graph : ImportGraph
  pending : Option (List String)
deriving DecidableEq

/-- Entering `buildGraph`: the graph is replaced by a fresh one and the
enumerated files become the in-flight work list. -/
def startBuild (workspaceRoot : String) (files : List String)
    (_bs : BuilderState) : BuilderState :=
  ⟨ImportGraph.empty workspaceRoot, some files⟩

/-- One iteration of the `buildGraph` loop (or, on an empty work list, the
final metrics pass). -/
def stepBuild (parse : String → Option ParsedFile) (bs : BuilderState) : BuilderState :=
  match bs.pending with
  | some (f :: rest) => ⟨processFile parse bs.graph f, some rest⟩
  | some [] => ⟨bs.graph.calculateMetrics, none⟩
  | none => bs

/-- `ImportGraphBuilder.updateFile` as requested from outside (the file
watcher): the source method has no in-progress check, so the update is
applied to the builder's graph irrespective of `pending`. -/
def requestUpdate (parse : String → Option ParsedFile) (f : String)
    (bs : BuilderState) : BuilderState :=
  ⟨updateFile parse bs.graph f, bs.pending⟩

/-- The slice of `ScaffoldViewProvider` relevant to the analysis guard. -/
structure ProviderState where
  isAnalyzing : Bool
  graph : ImportGraph
deriving DecidableEq

/-- `ScaffoldViewProvider.runAnalysis`: an early return when `isAnalyzing`
is set; otherwise the full analysis runs (modelled by its graph build) and
the flag is reset in the `finally` block. -/
def runAnalysis (workspaceRoot : String) (files : List String)
    (parse : String → Option ParsedFile) (s : ProviderState) : ProviderState :=
  if s.isAnalyzing then s
  else ⟨false, buildGraph workspaceRoot files parse⟩

/-! ### Concrete oracles used by counterexamples and witnesses -/

/-- A parse oracle that fails on every file. -/
def parseNone : String → Option ParsedFile := fun _ => none

/-- A parsed file with no imports at all. -/
def parsedNoImports (p : String) : ParsedFile :=
  ⟨p, [], [], false⟩

/-- A parse oracle: `/w/a.ts` parses with no imports, everything else fails. -/
def parseAEmpty : String → Option ParsedFile :=
  fun p => if p == "/w/a.ts" then some (parsedNoImports p) else none

/-- An import of `./x` resolved to `/w/x.js`. -/
def importOfXJs : ImportInfo :=
  ⟨"./x", some "/w/x.js", false, false, [], false, false⟩

/-- A parse oracle: `/w/a.ts` parses with one local import resolved to
`/w/x.js`, everything else fails. -/
def parseAImportsXJs : String → Option ParsedFile :=
  fun p => if p == "/w/a.ts" then some ⟨p, [importOfXJs], [], false⟩ else none

/-- A filesystem oracle: exactly the given paths exist (and are files). -/
def fsOf (paths : List String) : String → Bool :=
  fun p => paths.contains p

/-- Concrete two-file graph: `/w/a.ts` imports `/w/b.ts`. -/
def graphABexample : ImportGraph :=
  (ImportGraph.empty "/w").addEdge "/w/a.ts" "/w/b.ts"

/-- Concrete graph with a self-import: `/w/a.ts` imports itself (the graph
does not suppress self-edges). -/
def graphSelfLoop : ImportGraph :=
  (ImportGraph.empty "/w").addEdge "/w/a.ts" "/w/a.ts"

/-- An ignore oracle that ignores nothing. -/
def noIgnore : String → Bool := fun _ => false

/-- A fresh watcher over the empty graph. -/
def watcherEmpty : WatcherState := ⟨[], [], ImportGraph.empty "/w"⟩

/-- Watcher state after a delete event for `/w/a.ts` followed by a create
event for the same path (the file is then in both pending sets). -/
def watcherDeleteThenCreate : WatcherState :=
  handleCreate noIgnore (handleDelete noIgnore watcherEmpty "/w/a.ts") "/w/a.ts"

/-- Watcher state after a change event for `/w/a.ts` followed by a delete
event for the same path (the delete cancels the pending update). -/
def watcherUpdateThenDelete : WatcherState :=
  handleDelete noIgnore (handleChange noIgnore watcherEmpty "/w/a.ts") "/w/a.ts"

/-- A builder that has just entered `buildGraph` with one file still to
process. -/
def builderMidBuild : BuilderState :=
  startBuild "/w" ["/w/a.ts"] ⟨ImportGraph.empty "/w", none⟩

/-- A provider whose `isAnalyzing` flag is set. -/
def providerBusy : ProviderState := ⟨true, ImportGraph.empty "/w"⟩

/-- The metrics-computed graph of the C7 scenario: `z.ts` and `a.ts` have
no incoming edges, `m.ts` has one (from `a.ts`). -/
def leafScenarioGraph : ImportGraph :=
  ((((ImportGraph.empty "/w").addNode "/w/z.ts").addNode "/w/a.ts").addEdge
    "/w/a.ts" "/w/m.ts").calculateMetrics

/-- The node of `/w/b.ts` in `graphABexample.calculateMetrics`. -/
def nodeBexample : FileNode :=
  { filePath := "/w/b.ts", relativePath := "b.ts", imports := []
    importedBy := ["/w/a.ts"]
    metrics :=
      { inDegree := 1, outDegree := 0, isLeaf := false
        isLoadBearing := false, importanceScore := 100 } }

/-! ## Helper lemmas -/

theorem filePath_scrubImportedBy (X : String) (n : FileNode) :
    (scrubImportedBy X n).filePath = n.filePath := rfl

theorem filePath_scrubImports (X : String) (n : FileNode) :
    (scrubImports X n).filePath = n.filePath := rfl

theorem filePath_pushImport (b : String) (n : FileNode) :
    (pushImport b n).filePath = n.filePath := by
  unfold pushImport; split <;> rfl

theorem filePath_pushImportedBy (a : String) (n : FileNode) :
    (pushImportedBy a n).filePath = n.filePath := by
  unfold pushImportedBy; split <;> rfl

theorem imports_scrubImportedBy (X : String) (n : FileNode) :
    (scrubImportedBy X n).imports = n.imports := rfl

theorem importedBy_scrubImports (X : String) (n : FileNode) :
    (scrubImports X n).importedBy = n.importedBy := rfl

theorem scrubImportedBy_idem (X : String) (n : FileNode) :
    scrubImportedBy X (scrubImportedBy X n) = scrubImportedBy X n := by
  simp [scrubImportedBy, List.filter_filter]

theorem scrubImports_idem (X : String) (n : FileNode) :
    scrubImports X (scrubImports X n) = scrubImports X n := by
  simp [scrubImports, List.filter_filter]

theorem mem_filter_ne {l : List String} {x y : String} :
    x ∈ l.filter (fun q => q != y) ↔ x ∈ l ∧ x ≠ y := by
  simp [List.mem_filter]

theorem mem_imports_pushImport {b Y : String} {n : FileNode} :
    Y ∈ (pushImport b n).imports ↔ Y ∈ n.imports ∨ Y = b := by
  unfold pushImport
  split
  · rename_i h
    constructor
    · exact fun hy => Or.inl hy
    · rintro (hy | rfl) <;> [exact hy; exact h]
  · simp

theorem mem_importedBy_pushImportedBy {a Y : String} {n : FileNode} :
    Y ∈ (pushImportedBy a n).importedBy ↔ Y ∈ n.importedBy ∨ Y = a := by
  unfold pushImportedBy
  split
  · rename_i h
    constructor
    · exact fun hy => Or.inl hy
    · rintro (hy | rfl) <;> [exact hy; exact h]
  · simp

theorem imports_pushImportedBy (a : String) (n : FileNode) :
    (pushImportedBy a n).imports = n.imports := by
  unfold pushImportedBy; split <;> rfl

theorem importedBy_pushImport (b : String) (n : FileNode) :
    (pushImport b n).importedBy = n.importedBy := by
  unfold pushImport; split <;> rfl

/-- `updateNode` never changes the key stored at an entry, provided the
update function preserves it. -/
theorem map_filePath_updateNode (ns : List FileNode) (p : String)
    (f : FileNode → FileNode) (hf : ∀ n, (f n).filePath = n.filePath) :
    (updateNode ns p f).map FileNode.filePath = ns.map FileNode.filePath := by
  unfold updateNode
  rw [List.map_map]
  apply List.map_congr_left
  intro n _
  by_cases h : n.filePath = p <;> simp [h, hf, Function.comp]

theorem find?_updateNode (ns : List FileNode) (p q : String)
    (f : FileNode → FileNode) (hf : ∀ n, (f n).filePath = n.filePath) :
    (updateNode ns p f).find? (fun n => n.filePath == q) =
      (ns.find? (fun n => n.filePath == q)).map
        (fun n => if n.filePath = p then f n else n) := by
  unfold updateNode
  rw [List.find?_map]
  have hpred : ((fun n => n.filePath == q) ∘ fun n => if n.filePath = p then f n else n)
      = (fun n : FileNode => n.filePath == q) := by
    funext n
    by_cases h : n.filePath = p <;> simp [h, hf, Function.comp]
  rw [hpred]

theorem find?_map_key_preserving (ns : List FileNode) (q : String)
    (f : FileNode → FileNode) (hf : ∀ n, (f n).filePath = n.filePath) :
    (ns.map f).find? (fun n => n.filePath == q) =
      (ns.find? (fun n => n.filePath == q)).map f := by
  rw [List.find?_map]
  have hpred : ((fun n => n.filePath == q) ∘ f) = (fun n : FileNode => n.filePath == q) := by
    funext n
    simp [hf, Function.comp]
  rw [hpred]

/-- A fold of idempotent per-key updates is a single map. -/
theorem foldl_updateNode_idem (f : FileNode → FileNode)
    (hfp : ∀ n, (f n).filePath = n.filePath) (hid : ∀ n, f (f n) = f n) :
    ∀ (ps : List String) (ns : List FileNode),
      ps.foldl (fun ns p => updateNode ns p f) ns
        = ns.map (fun n => if n.filePath ∈ ps then f n else n)
  | [], ns => by
    simp
  | p :: ps, ns => by
    rw [List.foldl_cons, foldl_updateNode_idem f hfp hid ps (updateNode ns p f)]
    unfold updateNode
    rw [List.map_map]
    apply List.map_congr_left
    intro n _
    by_cases h1 : n.filePath = p
    · by_cases h2 : n.filePath ∈ ps <;>
        simp [Function.comp, h1, h2, hfp, hid]
    · by_cases h2 : n.filePath ∈ ps <;>
        simp [Function.comp, h1, h2, hfp, List.mem_cons]

theorem getNode_eq_none_iff (g : ImportGraph) (p : String) :
    g.getNode p = none ↔ ∀ n ∈ g.nodes, n.filePath ≠ p := by
  unfold ImportGraph.getNode
  rw [List.find?_eq_none]
  simp

theorem getNode_isSome_iff (g : ImportGraph) (p : String) :
    (g.getNode p).isSome ↔ ∃ n ∈ g.nodes, n.filePath = p := by
  unfold ImportGraph.getNode
  rw [List.find?_isSome]
  simp

theorem getNode_some_facts {g : ImportGraph} {p : String} {n : FileNode}
    (h : g.getNode p = some n) : n ∈ g.nodes ∧ n.filePath = p := by
  refine ⟨List.mem_of_find?_eq_some h, ?_⟩
  have := List.find?_some h
  simpa using this

/-- With unique keys, any node of the map carrying the key found by
`getNode` is the found node itself. -/
theorem unique_node_of_keysNodup {g : ImportGraph} {p : String} {nX : FileNode}
    (hnd : KeysNodup g) (h : g.getNode p = some nX) :
    ∀ n ∈ g.nodes, n.filePath = p → n = nX := by
  intro n hn hfp
  obtain ⟨hmem, hkey⟩ := getNode_some_facts h
  exact List.inj_on_of_nodup_map hnd hn hmem (by rw [hfp, hkey])


/-! ## Characterizations of the graph operations -/

theorem clearEdgesFor_of_none {g : ImportGraph} {X : String}
    (h : g.getNode X = none) : g.clearEdgesFor X = g := by
  unfold ImportGraph.clearEdgesFor
  rw [h]

theorem removeNode_of_none {g : ImportGraph} {X : String}
    (h : g.getNode X = none) : g.removeNode X = g := by
  unfold ImportGraph.removeNode
  rw [h]

theorem hasImport_addNode {g : ImportGraph} {p A B : String} :
    hasImport (g.addNode p) A B ↔ hasImport g A B := by
  unfold ImportGraph.addNode
  split
  · exact Iff.rfl
  · unfold hasImport
    constructor
    · rintro ⟨n, hn, hA, hB⟩
      simp only [List.mem_append, List.mem_singleton] at hn
      rcases hn with hn | rfl
      · exact ⟨n, hn, hA, hB⟩
      · simp [newNode] at hB
    · rintro ⟨n, hn, hA, hB⟩
      exact ⟨n, by simp [hn], hA, hB⟩

theorem hasImportedBy_addNode {g : ImportGraph} {p B A : String} :
    hasImportedBy (g.addNode p) B A ↔ hasImportedBy g B A := by
  unfold ImportGraph.addNode
  split
  · exact Iff.rfl
  · unfold hasImportedBy
    constructor
    · rintro ⟨n, hn, hB, hA⟩
      simp only [List.mem_append, List.mem_singleton] at hn
      rcases hn with hn | rfl
      · exact ⟨n, hn, hB, hA⟩
      · simp [newNode] at hA
    · rintro ⟨n, hn, hB, hA⟩
      exact ⟨n, by simp [hn], hB, hA⟩

theorem keysNodup_addNode {g : ImportGraph} (p : String) (h : KeysNodup g) :
    KeysNodup (g.addNode p) := by
  unfold ImportGraph.addNode
  split
  · exact h
  · rename_i hnone
    have habs : ∀ n ∈ g.nodes, n.filePath ≠ p :=
      (getNode_eq_none_iff g p).mp (Option.not_isSome_iff_eq_none.mp hnone)
    unfold KeysNodup at h ⊢
    simp only [List.map_append, List.map_cons, List.map_nil, List.nodup_append]
    refine ⟨h, by simp [newNode], ?_⟩
    intro x hx
    simp only [List.mem_map] at hx
    obtain ⟨n, hn, rfl⟩ := hx
    simp only [List.mem_singleton, newNode]
    exact habs n hn

theorem getNode_isSome_addNode_self (g : ImportGraph) (p : String) :
    ((g.addNode p).getNode p).isSome := by
  unfold ImportGraph.addNode
  split
  · assumption
  · rw [getNode_isSome_iff]
    exact ⟨newNode g.workspaceRoot p, by simp, rfl⟩

theorem getNode_isSome_addNode_mono {g : ImportGraph} {q : String} (p : String)
    (h : (g.getNode q).isSome) : ((g.addNode p).getNode q).isSome := by
  unfold ImportGraph.addNode
  split
  · exact h
  · rw [getNode_isSome_iff] at h ⊢
    obtain ⟨n, hn, hk⟩ := h
    exact ⟨n, by simp [hn], hk⟩

theorem filePath_importerStep (a b : String) (n : FileNode) :
    (importerStep a b n).filePath = n.filePath := by
  unfold importerStep
  split <;> simp [filePath_pushImport]

theorem filePath_importedStep (a b : String) (n : FileNode) :
    (importedStep a b n).filePath = n.filePath := by
  unfold importedStep
  split <;> simp [filePath_pushImportedBy]

theorem filePath_addEdgeTransform (a b : String) (n : FileNode) :
    (addEdgeTransform a b n).filePath = n.filePath := by
  unfold addEdgeTransform
  rw [filePath_importedStep, filePath_importerStep]

theorem imports_importedStep (a b : String) (n : FileNode) :
    (importedStep a b n).imports = n.imports := by
  unfold importedStep
  split <;> simp [imports_pushImportedBy]

theorem importedBy_importerStep (a b : String) (n : FileNode) :
    (importerStep a b n).importedBy = n.importedBy := by
  unfold importerStep
  split <;> simp [importedBy_pushImport]

theorem mem_imports_addEdgeTransform {a b B : String} {n : FileNode} :
    B ∈ (addEdgeTransform a b n).imports ↔
      B ∈ n.imports ∨ (n.filePath = a ∧ B = b) := by
  unfold addEdgeTransform
  rw [imports_importedStep]
  unfold importerStep
  split
  · rename_i h1
    rw [mem_imports_pushImport]
    simp [h1]
  · rename_i h1
    simp [h1]

theorem mem_importedBy_addEdgeTransform {a b A : String} {n : FileNode} :
    A ∈ (addEdgeTransform a b n).importedBy ↔
      A ∈ n.importedBy ∨ (n.filePath = b ∧ A = a) := by
  unfold addEdgeTransform importedStep
  rw [filePath_importerStep]
  split
  · rename_i h2
    rw [mem_importedBy_pushImportedBy, importedBy_importerStep]
    simp [h2]
  · rename_i h2
    rw [importedBy_importerStep]
    simp [h2]

theorem addEdge_nodes (g : ImportGraph) (a b : String) :
    (g.addEdge a b).nodes =
      ((g.addNode a).addNode b).nodes.map (addEdgeTransform a b) := by
  show updateNode
      (updateNode ((g.addNode a).addNode b).nodes a (pushImport b)) b (pushImportedBy a)
      = ((g.addNode a).addNode b).nodes.map (addEdgeTransform a b)
  unfold updateNode addEdgeTransform importedStep importerStep
  rw [List.map_map]
  rfl

theorem hasImport_addEdge {g : ImportGraph} {a b A B : String} :
    hasImport (g.addEdge a b) A B ↔ hasImport g A B ∨ (A = a ∧ B = b) := by
  have hex : ∃ n ∈ ((g.addNode a).addNode b).nodes, n.filePath = a := by
    rw [← getNode_isSome_iff]
    exact getNode_isSome_addNode_mono b (getNode_isSome_addNode_self g a)
  have h1 : ∀ A B, hasImport ((g.addNode a).addNode b) A B ↔ hasImport g A B := by
    intro A B
    rw [hasImport_addNode, hasImport_addNode]
  constructor
  · rintro ⟨n', hn', hA, hB⟩
    rw [addEdge_nodes] at hn'
    obtain ⟨n, hn, rfl⟩ := List.mem_map.mp hn'
    rw [filePath_addEdgeTransform] at hA
    rw [mem_imports_addEdgeTransform] at hB
    rcases hB with hB | ⟨hfa, rfl⟩
    · exact Or.inl ((h1 A B).mp ⟨n, hn, hA, hB⟩)
    · exact Or.inr ⟨by rw [← hA, hfa], rfl⟩
  · rintro (hImp | ⟨rfl, rfl⟩)
    · obtain ⟨n, hn, hA, hB⟩ := (h1 A B).mpr hImp
      refine ⟨addEdgeTransform a b n, ?_, ?_, ?_⟩
      · rw [addEdge_nodes]
        exact List.mem_map.mpr ⟨n, hn, rfl⟩
      · rw [filePath_addEdgeTransform]; exact hA
      · rw [mem_imports_addEdgeTransform]; exact Or.inl hB
    · obtain ⟨n, hn, hA⟩ := hex
      refine ⟨addEdgeTransform A B n, ?_, ?_, ?_⟩
      · rw [addEdge_nodes]
        exact List.mem_map.mpr ⟨n, hn, rfl⟩
      · rw [filePath_addEdgeTransform]; exact hA
      · rw [mem_imports_addEdgeTransform]; exact Or.inr ⟨hA, rfl⟩

theorem hasImportedBy_addEdge {g : ImportGraph} {a b B A : String} :
    hasImportedBy (g.addEdge a b) B A ↔
      hasImportedBy g B A ∨ (B = b ∧ A = a) := by
  have hex : ∃ n ∈ ((g.addNode a).addNode b).nodes, n.filePath = b := by
    rw [← getNode_isSome_iff]
    exact getNode_isSome_addNode_self (g.addNode a) b
  have h1 : ∀ B A, hasImportedBy ((g.addNode a).addNode b) B A ↔ hasImportedBy g B A := by
    intro B A
    rw [hasImportedBy_addNode, hasImportedBy_addNode]
  constructor
  · rintro ⟨n', hn', hB, hA⟩
    rw [addEdge_nodes] at hn'
    obtain ⟨n, hn, rfl⟩ := List.mem_map.mp hn'
    rw [filePath_addEdgeTransform] at hB
    rw [mem_importedBy_addEdgeTransform] at hA
    rcases hA with hA | ⟨hfb, rfl⟩
    · exact Or.inl ((h1 B A).mp ⟨n, hn, hB, hA⟩)
    · exact Or.inr ⟨by rw [← hB, hfb], rfl⟩
  · rintro (hIB | ⟨rfl, rfl⟩)
    · obtain ⟨n, hn, hB, hA⟩ := (h1 B A).mpr hIB
      refine ⟨addEdgeTransform a b n, ?_, ?_, ?_⟩
      · rw [addEdge_nodes]
        exact List.mem_map.mpr ⟨n, hn, rfl⟩
      · rw [filePath_addEdgeTransform]; exact hB
      · rw [mem_importedBy_addEdgeTransform]; exact Or.inl hA
    · obtain ⟨n, hn, hB⟩ := hex
      refine ⟨addEdgeTransform A B n, ?_, ?_, ?_⟩
      · rw [addEdge_nodes]
        exact List.mem_map.mpr ⟨n, hn, rfl⟩
      · rw [filePath_addEdgeTransform]; exact hB
      · rw [mem_importedBy_addEdgeTransform]; exact Or.inr ⟨hB, rfl⟩

theorem keys_map_preserved (ns : List FileNode) (F : FileNode → FileNode)
    (hF : ∀ n, (F n).filePath = n.filePath) :
    (ns.map F).map FileNode.filePath = ns.map FileNode.filePath := by
  rw [List.map_map]
  apply List.map_congr_left
  intro n _
  simp [hF, Function.comp]

theorem keysNodup_addEdge {g : ImportGraph} (a b : String) (h : KeysNodup g) :
    KeysNodup (g.addEdge a b) := by
  unfold KeysNodup
  rw [addEdge_nodes, keys_map_preserved _ _ (filePath_addEdgeTransform a b)]
  exact keysNodup_addNode b (keysNodup_addNode a h)

theorem edgeSym_addEdge {g : ImportGraph} (a b : String) (h : EdgeSym g) :
    EdgeSym (g.addEdge a b) := by
  intro A B
  rw [hasImport_addEdge, hasImportedBy_addEdge]
  exact or_congr (h A B) ⟨fun ⟨x, y⟩ => ⟨y, x⟩, fun ⟨x, y⟩ => ⟨y, x⟩⟩

theorem filePath_scrubStep (X : String) (imps : List String) (n : FileNode) :
    (scrubStep X imps n).filePath = n.filePath := by
  unfold scrubStep
  split <;> rfl

theorem imports_scrubStep (X : String) (imps : List String) (n : FileNode) :
    (scrubStep X imps n).imports = n.imports := by
  unfold scrubStep
  split <;> rfl

theorem importedBy_scrubStep (X : String) (imps : List String) (n : FileNode) :
    (scrubStep X imps n).importedBy =
      if n.filePath ∈ imps then n.importedBy.filter (fun q => q != X)
      else n.importedBy := by
  unfold scrubStep
  split <;> simp_all [scrubImportedBy]

theorem filePath_clearOwnStep (X : String) (n : FileNode) :
    (clearOwnStep X n).filePath = n.filePath := by
  unfold clearOwnStep
  split <;> rfl

theorem imports_clearOwnStep (X : String) (n : FileNode) :
    (clearOwnStep X n).imports = if n.filePath = X then [] else n.imports := by
  unfold clearOwnStep
  split <;> simp_all

theorem importedBy_clearOwnStep (X : String) (n : FileNode) :
    (clearOwnStep X n).importedBy = n.importedBy := by
  unfold clearOwnStep
  split <;> rfl

theorem filePath_clearNodeTransform (X : String) (imps : List String) (n : FileNode) :
    (clearNodeTransform X imps n).filePath = n.filePath := by
  unfold clearNodeTransform
  rw [filePath_clearOwnStep, filePath_scrubStep]

theorem imports_clearNodeTransform (X : String) (imps : List String) (n : FileNode) :
    (clearNodeTransform X imps n).imports = if n.filePath = X then [] else n.imports := by
  unfold clearNodeTransform
  rw [imports_clearOwnStep, filePath_scrubStep, imports_scrubStep]

theorem mem_importedBy_clearNodeTransform {X A : String} {imps : List String}
    {n : FileNode} :
    A ∈ (clearNodeTransform X imps n).importedBy ↔
      A ∈ n.importedBy ∧ (n.filePath ∈ imps → A ≠ X) := by
  unfold clearNodeTransform
  rw [importedBy_clearOwnStep, importedBy_scrubStep]
  by_cases hc : n.filePath ∈ imps <;> simp [hc, mem_filter_ne]

theorem clearEdgesFor_nodes {g : ImportGraph} {X : String} {nX : FileNode}
    (h : g.getNode X = some nX) :
    (g.clearEdgesFor X).nodes = g.nodes.map (clearNodeTransform X nX.imports) := by
  unfold ImportGraph.clearEdgesFor
  rw [h]
  show updateNode
      (nX.imports.foldl (fun ns p => updateNode ns p (scrubImportedBy X)) g.nodes)
      X (fun n => { n with imports := [] })
    = g.nodes.map (clearNodeTransform X nX.imports)
  rw [foldl_updateNode_idem (scrubImportedBy X) (filePath_scrubImportedBy X)
    (scrubImportedBy_idem X)]
  unfold updateNode clearNodeTransform clearOwnStep scrubStep
  rw [List.map_map]
  rfl

theorem hasImport_clearEdgesFor {g : ImportGraph} {X A B : String} {nX : FileNode}
    (h : g.getNode X = some nX) :
    hasImport (g.clearEdgesFor X) A B ↔ A ≠ X ∧ hasImport g A B := by
  unfold hasImport
  rw [clearEdgesFor_nodes h]
  constructor
  · rintro ⟨n', hn', hA, hB⟩
    obtain ⟨n, hn, rfl⟩ := List.mem_map.mp hn'
    rw [filePath_clearNodeTransform] at hA
    rw [imports_clearNodeTransform, hA] at hB
    by_cases hAX : A = X
    · rw [if_pos hAX] at hB
      exact absurd hB (List.not_mem_nil B)
    · rw [if_neg hAX] at hB
      exact ⟨hAX, n, hn, hA, hB⟩
  · rintro ⟨hAX, n, hn, hA, hB⟩
    refine ⟨clearNodeTransform X nX.imports n, List.mem_map.mpr ⟨n, hn, rfl⟩, ?_, ?_⟩
    · rw [filePath_clearNodeTransform]; exact hA
    · rw [imports_clearNodeTransform, hA, if_neg hAX]; exact hB

theorem hasImportedBy_clearEdgesFor {g : ImportGraph} {X B A : String} {nX : FileNode}
    (h : g.getNode X = some nX) :
    hasImportedBy (g.clearEdgesFor X) B A ↔
      hasImportedBy g B A ∧ (B ∈ nX.imports → A ≠ X) := by
  unfold hasImportedBy
  rw [clearEdgesFor_nodes h]
  constructor
  · rintro ⟨n', hn', hB, hA⟩
    obtain ⟨n, hn, rfl⟩ := List.mem_map.mp hn'
    rw [filePath_clearNodeTransform] at hB
    rw [mem_importedBy_clearNodeTransform] at hA
    obtain ⟨hAmem, hAcond⟩ := hA
    exact ⟨⟨n, hn, hB, hAmem⟩, fun hBmem => hAcond (hB ▸ hBmem)⟩
  · rintro ⟨⟨n, hn, hB, hA⟩, hcond⟩
    refine ⟨clearNodeTransform X nX.imports n, List.mem_map.mpr ⟨n, hn, rfl⟩, ?_, ?_⟩
    · rw [filePath_clearNodeTransform]; exact hB
    · rw [mem_importedBy_clearNodeTransform]
      exact ⟨hA, fun hmem => hcond (hB ▸ hmem)⟩

theorem keysNodup_clearEdgesFor {g : ImportGraph} (X : String) (h : KeysNodup g) :
    KeysNodup (g.clearEdgesFor X) := by
  cases hG : g.getNode X with
  | none => rw [clearEdgesFor_of_none hG]; exact h
  | some nX =>
    unfold KeysNodup
    rw [clearEdgesFor_nodes hG,
      keys_map_preserved _ _ (filePath_clearNodeTransform X nX.imports)]
    exact h

theorem edgeSym_clearEdgesFor {g : ImportGraph} (X : String)
    (hnd : KeysNodup g) (hs : EdgeSym g) : EdgeSym (g.clearEdgesFor X) := by
  cases hG : g.getNode X with
  | none => rw [clearEdgesFor_of_none hG]; exact hs
  | some nX =>
    intro A B
    rw [hasImport_clearEdgesFor hG, hasImportedBy_clearEdgesFor hG]
    constructor
    · rintro ⟨hAX, hImp⟩
      exact ⟨(hs A B).mp hImp, fun _ => hAX⟩
    · rintro ⟨hIB, hcond⟩
      have hImp := (hs A B).mpr hIB
      refine ⟨?_, hImp⟩
      by_cases hBm : B ∈ nX.imports
      · exact hcond hBm
      · intro hAX
        obtain ⟨n, hn, hfp, hB⟩ := hImp
        have hEq := unique_node_of_keysNodup hnd hG n hn (hAX ▸ hfp)
        rw [hEq] at hB
        exact hBm hB

theorem filePath_scrubImportsStep (X : String) (ib : List String) (n : FileNode) :
    (scrubImportsStep X ib n).filePath = n.filePath := by
  unfold scrubImportsStep
  split <;> rfl

theorem importedBy_scrubImportsStep (X : String) (ib : List String) (n : FileNode) :
    (scrubImportsStep X ib n).importedBy = n.importedBy := by
  unfold scrubImportsStep
  split <;> rfl

theorem imports_scrubImportsStep (X : String) (ib : List String) (n : FileNode) :
    (scrubImportsStep X ib n).imports =
      if n.filePath ∈ ib then n.imports.filter (fun q => q != X) else n.imports := by
  unfold scrubImportsStep
  split <;> simp_all [scrubImports]

theorem filePath_removeNodeTransform (X : String) (imps ib : List String) (n : FileNode) :
    (removeNodeTransform X imps ib n).filePath = n.filePath := by
  unfold removeNodeTransform
  rw [filePath_scrubImportsStep, filePath_scrubStep]

theorem mem_imports_removeNodeTransform {X B : String} {imps ib : List String}
    {n : FileNode} :
    B ∈ (removeNodeTransform X imps ib n).imports ↔
      B ∈ n.imports ∧ (n.filePath ∈ ib → B ≠ X) := by
  unfold removeNodeTransform
  rw [imports_scrubImportsStep, filePath_scrubStep, imports_scrubStep]
  by_cases hc : n.filePath ∈ ib <;> simp [hc, mem_filter_ne]

theorem mem_importedBy_removeNodeTransform {X A : String} {imps ib : List String}
    {n : FileNode} :
    A ∈ (removeNodeTransform X imps ib n).importedBy ↔
      A ∈ n.importedBy ∧ (n.filePath ∈ imps → A ≠ X) := by
  unfold removeNodeTransform
  rw [importedBy_scrubImportsStep, importedBy_scrubStep]
  by_cases hc : n.filePath ∈ imps <;> simp [hc, mem_filter_ne]

theorem mem_ibOf {X A : String} {nX : FileNode} :
    A ∈ ibOf X nX ↔ A ∈ nX.importedBy ∧ (X ∈ nX.imports → A ≠ X) := by
  unfold ibOf
  by_cases hc : X ∈ nX.imports <;> simp [hc, mem_filter_ne]

theorem removeNode_nodes {g : ImportGraph} {X : String} {nX : FileNode}
    (h : g.getNode X = some nX) :
    (g.removeNode X).nodes =
      (g.nodes.map (removeNodeTransform X nX.imports (ibOf X nX))).filter
        (fun n => n.filePath != X) := by
  have hkey : nX.filePath = X := (getNode_some_facts h).2
  have h1 : nX.imports.foldl (fun ns p => updateNode ns p (scrubImportedBy X)) g.nodes
      = g.nodes.map (scrubStep X nX.imports) := by
    rw [foldl_updateNode_idem (scrubImportedBy X) (filePath_scrubImportedBy X)
      (scrubImportedBy_idem X)]
    rfl
  have h2 : (g.nodes.map (scrubStep X nX.imports)).find? (fun n => n.filePath == X)
      = some (scrubStep X nX.imports nX) := by
    rw [find?_map_key_preserving _ _ _ (filePath_scrubStep X nX.imports)]
    have : g.nodes.find? (fun n => n.filePath == X) = some nX := h
    rw [this]
    rfl
  have h3 : (scrubStep X nX.imports nX).importedBy = ibOf X nX := by
    rw [importedBy_scrubStep, hkey]
    rfl
  unfold ImportGraph.removeNode
  rw [h]
  show List.filter (fun n => n.filePath != X)
      (List.foldl (fun ns p => updateNode ns p (scrubImports X))
        (List.foldl (fun ns p => updateNode ns p (scrubImportedBy X)) g.nodes nX.imports)
        (match List.find? (fun n => n.filePath == X)
            (List.foldl (fun ns p => updateNode ns p (scrubImportedBy X)) g.nodes
              nX.imports) with
          | some n => FileNode.importedBy n
          | none => ([] : List String)))
    = List.filter (fun n => n.filePath != X)
        (List.map (removeNodeTransform X nX.imports (ibOf X nX)) g.nodes)
  rw [h1, h2]
  show List.filter (fun n => n.filePath != X)
      (List.foldl (fun ns p => updateNode ns p (scrubImports X))
        (List.map (scrubStep X nX.imports) g.nodes)
        (scrubStep X nX.imports nX).importedBy)
    = _
  rw [h3, foldl_updateNode_idem (scrubImports X) (filePath_scrubImports X)
    (scrubImports_idem X)]
  unfold removeNodeTransform scrubImportsStep
  rw [List.map_map]
  rfl

theorem hasImport_removeNode {g : ImportGraph} {X A B : String} {nX : FileNode}
    (h : g.getNode X = some nX) :
    hasImport (g.removeNode X) A B ↔
      A ≠ X ∧ hasImport g A B ∧ (A ∈ ibOf X nX → B ≠ X) := by
  unfold hasImport
  rw [removeNode_nodes h]
  constructor
  · rintro ⟨n', hn', hA, hB⟩
    obtain ⟨hmem, hne⟩ := List.mem_filter.mp hn'
    obtain ⟨n, hn, rfl⟩ := List.mem_map.mp hmem
    rw [filePath_removeNodeTransform] at hA hne
    rw [mem_imports_removeNodeTransform] at hB
    obtain ⟨hBmem, hBcond⟩ := hB
    refine ⟨?_, ⟨n, hn, hA, hBmem⟩, fun hAib => hBcond (hA ▸ hAib)⟩
    rw [hA] at hne
    exact bne_iff_ne.mp hne
  · rintro ⟨hAX, ⟨n, hn, hA, hB⟩, hcond⟩
    refine ⟨removeNodeTransform X nX.imports (ibOf X nX) n, ?_, ?_, ?_⟩
    · rw [List.mem_filter]
      refine ⟨List.mem_map.mpr ⟨n, hn, rfl⟩, ?_⟩
      rw [filePath_removeNodeTransform, hA]
      exact bne_iff_ne.mpr hAX
    · rw [filePath_removeNodeTransform]; exact hA
    · rw [mem_imports_removeNodeTransform]
      exact ⟨hB, fun hib => hcond (hA ▸ hib)⟩

theorem hasImportedBy_removeNode {g : ImportGraph} {X B A : String} {nX : FileNode}
    (h : g.getNode X = some nX) :
    hasImportedBy (g.removeNode X) B A ↔
      B ≠ X ∧ hasImportedBy g B A ∧ (B ∈ nX.imports → A ≠ X) := by
  unfold hasImportedBy
  rw [removeNode_nodes h]
  constructor
  · rintro ⟨n', hn', hB, hA⟩
    obtain ⟨hmem, hne⟩ := List.mem_filter.mp hn'
    obtain ⟨n, hn, rfl⟩ := List.mem_map.mp hmem
    rw [filePath_removeNodeTransform] at hB hne
    rw [mem_importedBy_removeNodeTransform] at hA
    obtain ⟨hAmem, hAcond⟩ := hA
    refine ⟨?_, ⟨n, hn, hB, hAmem⟩, fun hBimp => hAcond (hB ▸ hBimp)⟩
    rw [hB] at hne
    exact bne_iff_ne.mp hne
  · rintro ⟨hBX, ⟨n, hn, hB, hA⟩, hcond⟩
    refine ⟨removeNodeTransform X nX.imports (ibOf X nX) n, ?_, ?_, ?_⟩
    · rw [List.mem_filter]
      refine ⟨List.mem_map.mpr ⟨n, hn, rfl⟩, ?_⟩
      rw [filePath_removeNodeTransform, hB]
      exact bne_iff_ne.mpr hBX
    · rw [filePath_removeNodeTransform]; exact hB
    · rw [mem_importedBy_removeNodeTransform]
      exact ⟨hA, fun himp => hcond (hB ▸ himp)⟩

theorem keysNodup_removeNode {g : ImportGraph} (X : String) (h : KeysNodup g) :
    KeysNodup (g.removeNode X) := by
  cases hG : g.getNode X with
  | none => rw [removeNode_of_none hG]; exact h
  | some nX =>
    unfold KeysNodup
    rw [removeNode_nodes hG]
    have hsub : List.Sublist
        (((g.nodes.map (removeNodeTransform X nX.imports (ibOf X nX))).filter
          (fun n => n.filePath != X)).map FileNode.filePath)
        ((g.nodes.map (removeNodeTransform X nX.imports (ibOf X nX))).map
          FileNode.filePath) :=
      (List.filter_sublist _).map FileNode.filePath
    have hnd2 : ((g.nodes.map (removeNodeTransform X nX.imports (ibOf X nX))).map
        FileNode.filePath).Nodup := by
      rw [keys_map_preserved _ _ (filePath_removeNodeTransform X nX.imports (ibOf X nX))]
      exact h
    exact hnd2.sublist hsub

theorem edgeSym_removeNode {g : ImportGraph} (X : String)
    (hnd : KeysNodup g) (hs : EdgeSym g) : EdgeSym (g.removeNode X) := by
  cases hG : g.getNode X with
  | none => rw [removeNode_of_none hG]; exact hs
  | some nX =>
    intro A B
    rw [hasImport_removeNode hG, hasImportedBy_removeNode hG]
    have F1 : hasImportedBy g X A → A ∈ nX.importedBy := by
      rintro ⟨n, hn, hfp, hA⟩
      have hEq := unique_node_of_keysNodup hnd hG n hn hfp
      rw [hEq] at hA
      exact hA
    have F2 : hasImport g X B → B ∈ nX.imports := by
      rintro ⟨n, hn, hfp, hB⟩
      have hEq := unique_node_of_keysNodup hnd hG n hn hfp
      rw [hEq] at hB
      exact hB
    constructor
    · rintro ⟨hAX, hImp, hAib⟩
      refine ⟨?_, (hs A B).mp hImp, fun _ => hAX⟩
      intro hBX
      rw [hBX] at hImp
      have hAmem : A ∈ nX.importedBy := F1 ((hs A X).mp hImp)
      have : A ∈ ibOf X nX := mem_ibOf.mpr ⟨hAmem, fun _ => hAX⟩
      exact hAib this hBX
    · rintro ⟨hBX, hIB, hBc⟩
      refine ⟨?_, (hs A B).mpr hIB, fun _ => hBX⟩
      intro hAX
      rw [hAX] at hIB
      have hBmem : B ∈ nX.imports := F2 ((hs X B).mpr hIB)
      exact hBc hBmem hAX

theorem inv_applyOp {g : ImportGraph} (op : GraphOp)
    (hnd : KeysNodup g) (hs : EdgeSym g) :
    KeysNodup (applyOp g op) ∧ EdgeSym (applyOp g op) := by
  cases op with
  | addEdge a b => exact ⟨keysNodup_addEdge a b hnd, edgeSym_addEdge a b hs⟩
  | removeNode p => exact ⟨keysNodup_removeNode p hnd, edgeSym_removeNode p hnd hs⟩
  | clearEdgesFor p => exact ⟨keysNodup_clearEdgesFor p hnd, edgeSym_clearEdgesFor p hnd hs⟩

theorem inv_applyOps (ops : List GraphOp) :
    ∀ (g : ImportGraph), KeysNodup g → EdgeSym g →
      KeysNodup (applyOps g ops) ∧ EdgeSym (applyOps g ops) := by
  induction ops with
  | nil => exact fun g hnd hs => ⟨hnd, hs⟩
  | cons op ops ih =>
    intro g hnd hs
    obtain ⟨hnd', hs'⟩ := inv_applyOp op hnd hs
    exact ih (applyOp g op) hnd' hs'

theorem keysNodup_empty (workspaceRoot : String) :
    KeysNodup (ImportGraph.empty workspaceRoot) := by
  simp [KeysNodup, ImportGraph.empty]

theorem edgeSym_empty (workspaceRoot : String) :
    EdgeSym (ImportGraph.empty workspaceRoot) := by
  intro A B
  constructor
  · rintro ⟨n, hn, -, -⟩
    exact absurd hn (List.not_mem_nil n)
  · rintro ⟨n, hn, -, -⟩
    exact absurd hn (List.not_mem_nil n)

/-- C1: Edge symmetry — for every pair of nodes `A`, `B`, `B` is in `A`'s
outgoing (`imports`) set iff `A` is in `B`'s incoming (`importedBy`) set,
after every sequence of `addEdge`, `removeNode` and `clearEdgesFor` calls
starting from the empty graph. -/
theorem edge_symmetry_after_ops (workspaceRoot : String) (ops : List GraphOp)
    (A B : String) :
    hasImport (applyOps (ImportGraph.empty workspaceRoot) ops) A B ↔
      hasImportedBy (applyOps (ImportGraph.empty workspaceRoot) ops) B A :=
  (inv_applyOps ops (ImportGraph.empty workspaceRoot)
    (keysNodup_empty workspaceRoot) (edgeSym_empty workspaceRoot)).2 A B

/-! ## Metrics lemmas (C2) -/

theorem calculateMetrics_nodes (g : ImportGraph) :
    (g.calculateMetrics).nodes = g.nodes.map (metricsApply (metricsMaxInDegree g)) := rfl

theorem filePath_metricsApply (M : Nat) (n : FileNode) :
    (metricsApply M n).filePath = n.filePath := rfl

theorem imports_metricsApply (M : Nat) (n : FileNode) :
    (metricsApply M n).imports = n.imports := rfl

theorem importedBy_metricsApply (M : Nat) (n : FileNode) :
    (metricsApply M n).importedBy = n.importedBy := rfl

theorem foldl_max_init_le (ns : List FileNode) :
    ∀ init : Nat, init ≤ ns.foldl (fun acc n => max acc n.importedBy.length) init := by
  induction ns with
  | nil => exact fun init => Nat.le_refl init
  | cons m ms ih =>
    intro init
    exact Nat.le_trans (Nat.le_max_left init m.importedBy.length)
      (ih (max init m.importedBy.length))

theorem le_foldl_max {ns : List FileNode} {n : FileNode} (hn : n ∈ ns) :
    ∀ init : Nat,
      n.importedBy.length ≤ ns.foldl (fun acc m => max acc m.importedBy.length) init := by
  induction ns with
  | nil => exact absurd hn (List.not_mem_nil n)
  | cons m ms ih =>
    intro init
    rcases List.mem_cons.mp hn with rfl | hmem
    · exact Nat.le_trans (Nat.le_max_right init n.importedBy.length)
        (foldl_max_init_le ms (max init n.importedBy.length))
    · exact ih hmem (max init m.importedBy.length)

theorem metricsMaxInDegree_pos (g : ImportGraph) : 1 ≤ metricsMaxInDegree g :=
  foldl_max_init_le g.nodes 1

theorem le_metricsMaxInDegree {g : ImportGraph} {n : FileNode} (hn : n ∈ g.nodes) :
    n.importedBy.length ≤ metricsMaxInDegree g :=
  le_foldl_max hn 1

theorem jsRound100_le_100 {i m : Nat} (hm : 1 ≤ m) (him : i ≤ m) :
    jsRound100 i m ≤ 100 := by
  unfold jsRound100
  have h1 : 200 * i + m ≤ m + 2 * m * 100 := by omega
  calc (200 * i + m) / (2 * m)
      ≤ (m + 2 * m * 100) / (2 * m) := Nat.div_le_div_right h1
    _ = m / (2 * m) + 100 := Nat.add_mul_div_left m 100 (by omega)
    _ = 100 := by rw [Nat.div_eq_of_lt (by omega)]

/-- Shared helper: the metrics postcondition established by one
`calculateMetrics` pass. -/
theorem metrics_spec_calculateMetrics (g : ImportGraph) :
    ∀ n ∈ (g.calculateMetrics).nodes,
      n.metrics.inDegree = n.importedBy.length ∧
      n.metrics.outDegree = n.imports.length ∧
      (n.metrics.isLeaf = true ↔ n.metrics.inDegree = 0) ∧
      (n.metrics.isLoadBearing = true ↔ 5 ≤ n.metrics.inDegree) ∧
      n.metrics.importanceScore = jsRound100 n.metrics.inDegree (metricsMaxInDegree g) ∧
      n.metrics.importanceScore ≤ 100 := by
  intro n hn
  rw [calculateMetrics_nodes] at hn
  obtain ⟨m, hm, rfl⟩ := List.mem_map.mp hn
  refine ⟨rfl, rfl, ?_, ?_, rfl, ?_⟩
  · show (m.importedBy.length == 0) = true ↔ m.importedBy.length = 0
    simp
  · show (decide (5 ≤ m.importedBy.length)) = true ↔ 5 ≤ m.importedBy.length
    simp
  · exact jsRound100_le_100 (metricsMaxInDegree_pos g) (le_metricsMaxInDegree hm)

/-- C2: After `calculateMetrics`, every node's metrics satisfy
`inDegree = |importedBy|`, `outDegree = |imports|`, `isLeaf ⇔ inDegree = 0`,
`isLoadBearing ⇔ inDegree ≥ 5`, and the importance score is the rounded
ratio of the in-degree to the global maximum in-degree (floored at 1),
hence lies in `[0, 100]` (it is a natural number); for a single-node
zero-edge graph the node gets `inDegree = 0` and `importanceScore = 0`. -/
theorem calculateMetrics_post :
    (∀ (g : ImportGraph), ∀ n ∈ (g.calculateMetrics).nodes,
      n.metrics.inDegree = n.importedBy.length ∧
      n.metrics.outDegree = n.imports.length ∧
      (n.metrics.isLeaf = true ↔ n.metrics.inDegree = 0) ∧
      (n.metrics.isLoadBearing = true ↔ 5 ≤ n.metrics.inDegree) ∧
      n.metrics.importanceScore = jsRound100 n.metrics.inDegree (metricsMaxInDegree g) ∧
      n.metrics.importanceScore ≤ 100) ∧
    ((((ImportGraph.empty "/w").addNode "/w/a.ts").calculateMetrics).getNode
        "/w/a.ts").map (fun n => (n.metrics.inDegree, n.metrics.importanceScore))
      = some (0, 0) := by
  constructor
  · exact metrics_spec_calculateMetrics
  · decide

/-- Witness for C2 at the concrete graph `a.ts → b.ts`: the `b.ts` node is
in the metrics-computed node list and satisfies the stated postcondition. -/
theorem calculateMetrics_post_witness :
    nodeBexample ∈ (graphABexample.calculateMetrics).nodes ∧
      (nodeBexample.metrics.inDegree = nodeBexample.importedBy.length ∧
      nodeBexample.metrics.outDegree = nodeBexample.imports.length ∧
      (nodeBexample.metrics.isLeaf = true ↔ nodeBexample.metrics.inDegree = 0) ∧
      (nodeBexample.metrics.isLoadBearing = true ↔ 5 ≤ nodeBexample.metrics.inDegree) ∧
      nodeBexample.metrics.importanceScore
        = jsRound100 nodeBexample.metrics.inDegree (metricsMaxInDegree graphABexample) ∧
      nodeBexample.metrics.importanceScore ≤ 100) :=
  ⟨by decide, calculateMetrics_post.1 graphABexample nodeBexample (by decide)⟩

/-! ## Builder lemmas (C3, C9, C10) -/

theorem foldl_preserves {α : Type} {P : ImportGraph → Prop}
    (step : ImportGraph → α → ImportGraph) :
    ∀ (l : List α) (g : ImportGraph),
      (∀ gg a, a ∈ l → P gg → P (step gg a)) → P g → P (l.foldl step g)
  | [], _, _, hP => hP
  | a :: l, g, hstep, hP =>
    foldl_preserves step l (step g a)
      (fun gg b hb => hstep gg b (List.mem_cons_of_mem a hb))
      (hstep g a (List.mem_cons_self a l) hP)

theorem mem_nodes_addNode {g : ImportGraph} {p : String} {n : FileNode}
    (hn : n ∈ (g.addNode p).nodes) :
    n ∈ g.nodes ∨ n = newNode g.workspaceRoot p := by
  unfold ImportGraph.addNode at hn
  split at hn
  · exact Or.inl hn
  · simpa using hn

theorem mem_nodes_addNode_of_mem {g : ImportGraph} {p : String} {n : FileNode}
    (hn : n ∈ g.nodes) : n ∈ (g.addNode p).nodes := by
  unfold ImportGraph.addNode
  split
  · exact hn
  · simp [hn]

theorem imports_addEdgeTransform_of_ne {a b : String} {n : FileNode}
    (h : n.filePath ≠ a) : (addEdgeTransform a b n).imports = n.imports := by
  unfold addEdgeTransform
  rw [imports_importedStep]
  unfold importerStep
  rw [if_neg h]

theorem emptyImports_addNode {g : ImportGraph} {f : String} (p : String)
    (h : ∀ n ∈ g.nodes, n.filePath = f → n.imports = []) :
    ∀ n ∈ (g.addNode p).nodes, n.filePath = f → n.imports = [] := by
  intro n hn hf
  rcases mem_nodes_addNode hn with hmem | rfl
  · exact h n hmem hf
  · rfl

theorem emptyImports_addEdge {g : ImportGraph} {f a b : String} (haf : a ≠ f)
    (h : ∀ n ∈ g.nodes, n.filePath = f → n.imports = []) :
    ∀ n ∈ (g.addEdge a b).nodes, n.filePath = f → n.imports = [] := by
  intro n hn hf
  rw [addEdge_nodes] at hn
  obtain ⟨m, hm, rfl⟩ := List.mem_map.mp hn
  rw [filePath_addEdgeTransform] at hf
  rw [imports_addEdgeTransform_of_ne (by rw [hf]; exact fun hc => haf hc.symm)]
  have h1 := emptyImports_addNode (g := g) (f := f) a h
  have h2 := emptyImports_addNode (g := g.addNode a) (f := f) b h1
  exact h2 m hm hf

theorem emptyImports_processFile {g : ImportGraph} {f : String}
    {parse : String → Option ParsedFile} (hf : parse f = none) (x : String)
    (h : ∀ n ∈ g.nodes, n.filePath = f → n.imports = []) :
    ∀ n ∈ (processFile parse g x).nodes, n.filePath = f → n.imports = [] := by
  unfold processFile
  cases hpx : parse x with
  | none => exact h
  | some pf =>
    have hxf : x ≠ f := by
      intro hc
      rw [hc, hf] at hpx
      exact Option.noConfusion hpx
    apply foldl_preserves
      (P := fun gg => ∀ n ∈ gg.nodes, n.filePath = f → n.imports = [])
    · intro gg imp _ hP
      dsimp only
      split
      · exact hP
      · cases himp : imp.resolvedPath with
        | some r => exact emptyImports_addEdge hxf hP
        | none => exact hP
    · exact emptyImports_addNode x h

theorem emptyImports_calculateMetrics {g : ImportGraph} {f : String}
    (h : ∀ n ∈ g.nodes, n.filePath = f → n.imports = []) :
    ∀ n ∈ (g.calculateMetrics).nodes, n.filePath = f → n.imports = [] := by
  intro n hn hf
  rw [calculateMetrics_nodes] at hn
  obtain ⟨m, hm, rfl⟩ := List.mem_map.mp hn
  exact h m hm hf

theorem absentKey_addNode {g : ImportGraph} {f p : String} (hpf : p ≠ f)
    (h : ∀ n ∈ g.nodes, n.filePath ≠ f) :
    ∀ n ∈ (g.addNode p).nodes, n.filePath ≠ f := by
  intro n hn
  rcases mem_nodes_addNode hn with hmem | rfl
  · exact h n hmem
  · exact hpf

theorem absentKey_addEdge {g : ImportGraph} {f a b : String} (haf : a ≠ f)
    (hbf : b ≠ f) (h : ∀ n ∈ g.nodes, n.filePath ≠ f) :
    ∀ n ∈ (g.addEdge a b).nodes, n.filePath ≠ f := by
  intro n hn
  rw [addEdge_nodes] at hn
  obtain ⟨m, hm, rfl⟩ := List.mem_map.mp hn
  rw [filePath_addEdgeTransform]
  exact absentKey_addNode hbf (absentKey_addNode haf h) m hm

theorem absentKey_processFile {g : ImportGraph} {f x : String}
    {parse : String → Option ParsedFile} (hf : parse f = none)
    (hxt : ¬importsTarget parse x f)
    (h : ∀ n ∈ g.nodes, n.filePath ≠ f) :
    ∀ n ∈ (processFile parse g x).nodes, n.filePath ≠ f := by
  unfold processFile
  cases hpx : parse x with
  | none => exact h
  | some pf =>
    have hxf : x ≠ f := by
      intro hc
      rw [hc, hf] at hpx
      exact Option.noConfusion hpx
    apply foldl_preserves (P := fun gg => ∀ n ∈ gg.nodes, n.filePath ≠ f)
    · intro gg imp himp hP
      dsimp only
      split
      · exact hP
      · rename_i hext
        cases hres : imp.resolvedPath with
        | some r =>
          have hrf : r ≠ f := by
            intro hc
            exact hxt ⟨pf, hpx, imp, himp,
              Bool.not_eq_true imp.isExternal ▸ Bool.of_not_eq_true hext, hc ▸ hres⟩
          exact absentKey_addEdge hxf hrf hP
        | none => exact hP
    · exact absentKey_addNode hxf h


theorem absentKey_calculateMetrics {g : ImportGraph} {f : String}
    (h : ∀ n ∈ g.nodes, n.filePath ≠ f) :
    ∀ n ∈ (g.calculateMetrics).nodes, n.filePath ≠ f := by
  intro n hn
  rw [calculateMetrics_nodes] at hn
  obtain ⟨m, hm, rfl⟩ := List.mem_map.mp hn
  exact h m hm

theorem presentKey_addNode {g : ImportGraph} {x : String} (p : String)
    (h : ∃ n ∈ g.nodes, n.filePath = x) :
    ∃ n ∈ (g.addNode p).nodes, n.filePath = x := by
  obtain ⟨n, hn, hk⟩ := h
  exact ⟨n, mem_nodes_addNode_of_mem hn, hk⟩

theorem presentKey_addEdge {g : ImportGraph} {x a b : String}
    (h : ∃ n ∈ g.nodes, n.filePath = x) :
    ∃ n ∈ (g.addEdge a b).nodes, n.filePath = x := by
  obtain ⟨n, hn, hk⟩ := presentKey_addNode b (presentKey_addNode a h)
  refine ⟨addEdgeTransform a b n, ?_, ?_⟩
  · rw [addEdge_nodes]
    exact List.mem_map.mpr ⟨n, hn, rfl⟩
  · rw [filePath_addEdgeTransform]
    exact hk

theorem presentKey_processFile {g : ImportGraph} {x y : String}
    {parse : String → Option ParsedFile}
    (h : ∃ n ∈ g.nodes, n.filePath = x) :
    ∃ n ∈ (processFile parse g y).nodes, n.filePath = x := by
  unfold processFile
  cases parse y with
  | none => exact h
  | some pf =>
    apply foldl_preserves (P := fun gg => ∃ n ∈ gg.nodes, n.filePath = x)
    · intro gg imp _ hP
      dsimp only
      split
      · exact hP
      · cases imp.resolvedPath with
        | some r => exact presentKey_addEdge hP
        | none => exact hP
    · exact presentKey_addNode y h

theorem presentKey_processFile_self {g : ImportGraph} {x : String}
    {parse : String → Option ParsedFile} (hx : (parse x).isSome) :
    ∃ n ∈ (processFile parse g x).nodes, n.filePath = x := by
  unfold processFile
  obtain ⟨pf, hpf⟩ := Option.isSome_iff_exists.mp hx
  rw [hpf]
  apply foldl_preserves (P := fun gg => ∃ n ∈ gg.nodes, n.filePath = x)
  · intro gg imp _ hP
    dsimp only
    split
    · exact hP
    · cases imp.resolvedPath with
      | some r => exact presentKey_addEdge hP
      | none => exact hP
  · rw [← getNode_isSome_iff]
    exact getNode_isSome_addNode_self g x

theorem presentKey_foldl_files {x : String} {parse : String → Option ParsedFile}
    (hx : (parse x).isSome) :
    ∀ (files : List String) (g : ImportGraph), x ∈ files →
      ∃ n ∈ (files.foldl (processFile parse) g).nodes, n.filePath = x := by
  intro files
  induction files with
  | nil => intro g hmem; exact absurd hmem (List.not_mem_nil x)
  | cons y ys ih =>
    intro g hmem
    rcases List.mem_cons.mp hmem with rfl | hmem'
    · rw [List.foldl_cons]
      apply foldl_preserves (P := fun gg => ∃ n ∈ gg.nodes, n.filePath = x)
      · intro gg b _ hP
        exact presentKey_processFile hP
      · exact presentKey_processFile_self hx
    · exact ih (processFile parse g y) hmem'

theorem presentKey_calculateMetrics {g : ImportGraph} {x : String}
    (h : ∃ n ∈ g.nodes, n.filePath = x) :
    ∃ n ∈ (g.calculateMetrics).nodes, n.filePath = x := by
  obtain ⟨n, hn, hk⟩ := h
  refine ⟨metricsApply (metricsMaxInDegree g) n, ?_, hk⟩
  rw [calculateMetrics_nodes]
  exact List.mem_map.mpr ⟨n, hn, rfl⟩

theorem getNode_calculateMetrics (g : ImportGraph) (f : String) :
    (g.calculateMetrics).getNode f =
      (g.getNode f).map (metricsApply (metricsMaxInDegree g)) := by
  show ((g.calculateMetrics).nodes).find? (fun n => n.filePath == f) = _
  rw [calculateMetrics_nodes]
  exact find?_map_key_preserving _ _ _ (filePath_metricsApply (metricsMaxInDegree g))

/-- C3: If a file's parse fails, a full build still gives it no outgoing
edges (it is absent from the graph unless it is the target of another
file's resolved import, and any node it does have carries an empty
`imports` list), while every file whose parse succeeds is present in the
built graph. -/
theorem buildGraph_parse_failure
    (workspaceRoot : String) (files : List String)
    (parse : String → Option ParsedFile) (f : String)
    (hf : parse f = none) :
    (∀ n, (buildGraph workspaceRoot files parse).getNode f = some n → n.imports = []) ∧
    ((∀ x ∈ files, ¬importsTarget parse x f) →
      (buildGraph workspaceRoot files parse).getNode f = none) ∧
    (∀ x ∈ files, (parse x).isSome →
      ((buildGraph workspaceRoot files parse).getNode x).isSome) := by
  unfold buildGraph
  refine ⟨?_, ?_, ?_⟩
  · intro n hn
    obtain ⟨hmem, hkey⟩ := getNode_some_facts hn
    have hP : ∀ n ∈ (files.foldl (processFile parse)
        (ImportGraph.empty workspaceRoot)).nodes, n.filePath = f → n.imports = [] := by
      apply foldl_preserves
        (P := fun gg => ∀ n ∈ gg.nodes, n.filePath = f → n.imports = [])
      · intro gg x _ hPP
        exact emptyImports_processFile hf x hPP
      · intro n hn _
        exact absurd hn (List.not_mem_nil n)
    exact emptyImports_calculateMetrics hP n hmem hkey
  · intro hnt
    rw [getNode_eq_none_iff]
    apply absentKey_calculateMetrics
    apply foldl_preserves (P := fun gg => ∀ n ∈ gg.nodes, n.filePath ≠ f)
    · intro gg x hx hPP
      exact absentKey_processFile hf (hnt x hx) hPP
    · intro n hn
      exact absurd hn (List.not_mem_nil n)
  · intro x hx hpx
    rw [getNode_isSome_iff]
    exact presentKey_calculateMetrics (presentKey_foldl_files hpx files _ hx)

/-- Witness for C3: a two-file workspace where `/w/bad.ts` fails to parse;
the build gives it no node and the parsable file is present. -/
theorem buildGraph_parse_failure_witness :
    parseAImportsXJs "/w/bad.ts" = none ∧
    ((∀ n, (buildGraph "/w" ["/w/a.ts", "/w/bad.ts"] parseAImportsXJs).getNode
        "/w/bad.ts" = some n → n.imports = []) ∧
    ((∀ x ∈ ["/w/a.ts", "/w/bad.ts"], ¬importsTarget parseAImportsXJs x "/w/bad.ts") →
      (buildGraph "/w" ["/w/a.ts", "/w/bad.ts"] parseAImportsXJs).getNode
        "/w/bad.ts" = none) ∧
    (∀ x ∈ ["/w/a.ts", "/w/bad.ts"], (parseAImportsXJs x).isSome →
      ((buildGraph "/w" ["/w/a.ts", "/w/bad.ts"] parseAImportsXJs).getNode x).isSome)) :=
  ⟨by decide,
    buildGraph_parse_failure "/w" ["/w/a.ts", "/w/bad.ts"] parseAImportsXJs
      "/w/bad.ts" (by decide)⟩

theorem getNode_clearEdgesFor_self {g : ImportGraph} {f : String} {nX : FileNode}
    (h : g.getNode f = some nX) :
    (g.clearEdgesFor f).getNode f = some (clearNodeTransform f nX.imports nX) := by
  show ((g.clearEdgesFor f).nodes).find? (fun n => n.filePath == f) = _
  rw [clearEdgesFor_nodes h,
    find?_map_key_preserving _ _ _ (filePath_clearNodeTransform f nX.imports)]
  have : g.nodes.find? (fun n => n.filePath == f) = some nX := h
  rw [this]
  rfl

/-- C9 (amended): `updateFile` on a file whose re-parse fails keeps the
file's node (when it exists) with an empty outgoing list, leaves its
incoming list unchanged except that a self-import is also scrubbed out of
it, creates no node when none exists, and still recomputes metrics for the
whole graph; the model is a total function, so no exception escapes. -/
theorem updateFile_parse_failure (parse : String → Option ParsedFile)
    (g : ImportGraph) (f : String) (hf : parse f = none) :
    (∀ n, g.getNode f = some n →
      ∃ n', (updateFile parse g f).getNode f = some n' ∧
        n'.imports = [] ∧
        n'.importedBy = (if f ∈ n.imports
          then n.importedBy.filter (fun q => q != f) else n.importedBy)) ∧
    (g.getNode f = none → (updateFile parse g f).getNode f = none) ∧
    (∀ n ∈ (updateFile parse g f).nodes,
      n.metrics.inDegree = n.importedBy.length ∧
      n.metrics.outDegree = n.imports.length ∧
      (n.metrics.isLeaf = true ↔ n.metrics.inDegree = 0) ∧
      (n.metrics.isLoadBearing = true ↔ 5 ≤ n.metrics.inDegree) ∧
      n.metrics.importanceScore ≤ 100) := by
  have hupd : updateFile parse g f = (g.clearEdgesFor f).calculateMetrics := by
    unfold updateFile processFile
    rw [hf]
  refine ⟨?_, ?_, ?_⟩
  · intro n hn
    have hkey : n.filePath = f := (getNode_some_facts hn).2
    have hclear := getNode_clearEdgesFor_self hn
    rw [hupd, getNode_calculateMetrics, hclear]
    refine ⟨metricsApply (metricsMaxInDegree (g.clearEdgesFor f))
      (clearNodeTransform f n.imports n), rfl, ?_, ?_⟩
    · rw [imports_metricsApply, imports_clearNodeTransform, hkey]
      simp
    · rw [importedBy_metricsApply]
      unfold clearNodeTransform
      rw [importedBy_clearOwnStep, importedBy_scrubStep, hkey]
  · intro hnone
    rw [hupd, clearEdgesFor_of_none hnone, getNode_calculateMetrics, hnone]
    rfl
  · rw [hupd]
    intro n hn
    obtain ⟨h1, h2, h3, h4, _, h6⟩ :=
      metrics_spec_calculateMetrics (g.clearEdgesFor f) n hn
    exact ⟨h1, h2, h3, h4, h6⟩

/-- C9 counterexample: on a self-importing file whose re-parse fails, the
claim "its incoming set is left unchanged" is false — `clearEdgesFor`
scrubs the file out of its own `importedBy` list (before: `["/w/a.ts"]`,
after the update: `[]`). -/
theorem updateFile_selfImport_incoming_changed :
    ((graphSelfLoop.getNode "/w/a.ts").map FileNode.importedBy = some ["/w/a.ts"]) ∧
    (((updateFile parseNone graphSelfLoop "/w/a.ts").getNode "/w/a.ts").map
      FileNode.importedBy = some []) := by
  decide

/-- Witness for C9 (amended) at the self-loop graph with an all-failing
parse oracle. -/
theorem updateFile_parse_failure_witness :
    parseNone "/w/a.ts" = none ∧
    ((∀ n, graphSelfLoop.getNode "/w/a.ts" = some n →
      ∃ n', (updateFile parseNone graphSelfLoop "/w/a.ts").getNode "/w/a.ts" = some n' ∧
        n'.imports = [] ∧
        n'.importedBy = (if "/w/a.ts" ∈ n.imports
          then n.importedBy.filter (fun q => q != "/w/a.ts") else n.importedBy)) ∧
    (graphSelfLoop.getNode "/w/a.ts" = none →
      (updateFile parseNone graphSelfLoop "/w/a.ts").getNode "/w/a.ts" = none) ∧
    (∀ n ∈ (updateFile parseNone graphSelfLoop "/w/a.ts").nodes,
      n.metrics.inDegree = n.importedBy.length ∧
      n.metrics.outDegree = n.imports.length ∧
      (n.metrics.isLeaf = true ↔ n.metrics.inDegree = 0) ∧
      (n.metrics.isLoadBearing = true ↔ 5 ≤ n.metrics.inDegree) ∧
      n.metrics.importanceScore ≤ 100)) :=
  ⟨rfl, updateFile_parse_failure parseNone graphSelfLoop "/w/a.ts" rfl⟩

/-! ## Resolver lemmas (C4, C10) -/

theorem tryExts_eq_find? (ex isf : String → Bool) (basePath : String) :
    ∀ exts : List String,
      tryExts ex isf basePath exts =
        (exts.map (fun e => basePath ++ e)).find? (fun p => ex p && isf p)
  | [] => rfl
  | e :: rest => by
    simp only [tryExts, List.map_cons, List.find?_cons]
    by_cases h : ex (basePath ++ e) && isf (basePath ++ e) <;>
      simp [h, tryExts_eq_find? ex isf basePath rest]

theorem tryIndex_eq_find? (ex : String → Bool) (basePath : String) :
    ∀ exts : List String,
      tryIndex ex basePath exts =
        (exts.map (fun e => basePath ++ "/index" ++ e)).find? ex
  | [] => rfl
  | e :: rest => by
    simp only [tryIndex, List.map_cons, List.find?_cons]
    by_cases h : ex (basePath ++ "/index" ++ e) <;>
      simp [h, tryIndex_eq_find? ex basePath rest]

/-- C4 counterexample: the claimed ordering contract fails on the code.
With both the bare path `x` and `x.ts` existing as regular files the code
resolves to `x.ts` (extension-appended candidates are tried before the
bare path, which sits last in the extension list as `''`), while the
spec's ordering would resolve to `x`; and an index candidate is accepted
on mere existence, without the regular-file check the claim requires. -/
theorem resolveRelativeImport_spec_ordering_false :
    fsOf ["x", "x.ts"] "x" = true ∧
    resolveRelativeImport (fsOf ["x", "x.ts"]) (fsOf ["x", "x.ts"]) "x" = some "x.ts" ∧
    resolveRelativeImport_specOrdering (fsOf ["x", "x.ts"]) (fsOf ["x", "x.ts"]) "x"
      = some "x" ∧
    resolveRelativeImport (fsOf ["x/index.ts"]) (fun _ => false) "x"
      = some "x/index.ts" ∧
    (fun (_ : String) => false) "x/index.ts" = false := by
  decide

/-- C4 (amended): resolution tries the extension-appended candidates in
the declared order `.ts`, `.tsx`, `.js`, `.jsx` and then the bare path
(the empty extension is last in the list), each winning only as an
existing regular file; only when all of these miss are the index
candidates tried in the same extension order, winning on existence alone.
In particular, for specifier `./x` with both `x.ts` and `x/index.ts`
present, resolution returns `x.ts`. -/
theorem resolveRelativeImport_ordering :
    (∀ (ex isf : String → Bool) (basePath : String),
      resolveRelativeImport ex isf basePath =
        match ([".ts", ".tsx", ".js", ".jsx", ""].map (fun e => basePath ++ e)).find?
            (fun p => ex p && isf p) with
        | some r => some r
        | none =>
          ([".ts", ".tsx", ".js", ".jsx"].map
            (fun e => basePath ++ "/index" ++ e)).find? ex) ∧
    resolveRelativeImport (fsOf ["x.ts", "x/index.ts"]) (fsOf ["x.ts", "x/index.ts"]) "x"
      = some "x.ts" := by
  constructor
  · intro ex isf basePath
    unfold resolveRelativeImport
    rw [tryExts_eq_find?, tryIndex_eq_find?]
  · decide

/-! ## Watcher lemmas (C5) -/

theorem getNode_removeNode_self (g : ImportGraph) (f : String) :
    (g.removeNode f).getNode f = none := by
  cases hG : g.getNode f with
  | none => rw [removeNode_of_none hG]; exact hG
  | some nX =>
    rw [getNode_eq_none_iff]
    intro n hn
    rw [removeNode_nodes hG] at hn
    obtain ⟨-, hne⟩ := List.mem_filter.mp hn
    exact bne_iff_ne.mp hne

theorem absentKey_removeNode {g : ImportGraph} {f : String} (d : String)
    (h : ∀ n ∈ g.nodes, n.filePath ≠ f) :
    ∀ n ∈ (g.removeNode d).nodes, n.filePath ≠ f := by
  cases hG : g.getNode d with
  | none => rw [removeNode_of_none hG]; exact h
  | some nX =>
    intro n hn
    rw [removeNode_nodes hG] at hn
    obtain ⟨hmem, -⟩ := List.mem_filter.mp hn
    obtain ⟨m, hm, rfl⟩ := List.mem_map.mp hmem
    rw [filePath_removeNodeTransform]
    exact h m hm

theorem absentKey_removeFile {g : ImportGraph} {f : String} (d : String)
    (h : ∀ n ∈ g.nodes, n.filePath ≠ f) :
    ∀ n ∈ (removeFile g d).nodes, n.filePath ≠ f :=
  absentKey_calculateMetrics (absentKey_removeNode d h)

theorem absentKey_removeFile_self (g : ImportGraph) (f : String) :
    ∀ n ∈ (removeFile g f).nodes, n.filePath ≠ f := by
  apply absentKey_calculateMetrics
  rw [← getNode_eq_none_iff]
  exact getNode_removeNode_self g f

theorem absentKey_after_deletes {f : String} :
    ∀ (ds : List String) (g : ImportGraph), f ∈ ds →
      ∀ n ∈ (ds.foldl removeFile g).nodes, n.filePath ≠ f := by
  intro ds
  induction ds with
  | nil => intro g hmem; exact absurd hmem (List.not_mem_nil f)
  | cons d ds ih =>
    intro g hmem
    rcases List.mem_cons.mp hmem with rfl | hmem'
    · rw [List.foldl_cons]
      apply foldl_preserves (P := fun gg => ∀ n ∈ gg.nodes, n.filePath ≠ f)
      · intro gg b _ hP
        exact absentKey_removeFile b hP
      · exact absentKey_removeFile_self g f
    · exact ih (removeFile g d) hmem'

theorem absentKey_processFile_ne {g : ImportGraph} {f x : String}
    {parse : String → Option ParsedFile} (hxf : x ≠ f)
    (hxt : ¬importsTarget parse x f)
    (h : ∀ n ∈ g.nodes, n.filePath ≠ f) :
    ∀ n ∈ (processFile parse g x).nodes, n.filePath ≠ f := by
  unfold processFile
  cases hpx : parse x with
  | none => exact h
  | some pf =>
    apply foldl_preserves (P := fun gg => ∀ n ∈ gg.nodes, n.filePath ≠ f)
    · intro gg imp himp hP
      dsimp only
      split
      · exact hP
      · rename_i hext
        cases hres : imp.resolvedPath with
        | some r =>
          have hrf : r ≠ f := by
            intro hc
            exact hxt ⟨pf, hpx, imp, himp,
              Bool.not_eq_true imp.isExternal ▸ Bool.of_not_eq_true hext, hc ▸ hres⟩
          exact absentKey_addEdge hxf hrf hP
        | none => exact hP
    · exact absentKey_addNode hxf h

theorem absentKey_clearEdgesFor {g : ImportGraph} {f : String} (d : String)
    (h : ∀ n ∈ g.nodes, n.filePath ≠ f) :
    ∀ n ∈ (g.clearEdgesFor d).nodes, n.filePath ≠ f := by
  cases hG : g.getNode d with
  | none => rw [clearEdgesFor_of_none hG]; exact h
  | some nX =>
    intro n hn
    rw [clearEdgesFor_nodes hG] at hn
    obtain ⟨m, hm, rfl⟩ := List.mem_map.mp hn
    rw [filePath_clearNodeTransform]
    exact h m hm

theorem absentKey_updateFile {g : ImportGraph} {f u : String}
    {parse : String → Option ParsedFile} (huf : u ≠ f)
    (hnt : ¬importsTarget parse u f)
    (h : ∀ n ∈ g.nodes, n.filePath ≠ f) :
    ∀ n ∈ (updateFile parse g u).nodes, n.filePath ≠ f :=
  absentKey_calculateMetrics
    (absentKey_processFile_ne huf hnt (absentKey_clearEdgesFor u h))

/-- C5 counterexample: a delete event followed by a create event for the
same file leaves the file in both pending sets, and the flush (deletes
first, then updates) re-adds the file — after the flush it is present in
the graph, contradicting "delete-wins". -/
theorem flush_delete_then_create_readds :
    ("/w/a.ts" ∈ watcherDeleteThenCreate.pendingUpdates ∧
      "/w/a.ts" ∈ watcherDeleteThenCreate.pendingDeletes) ∧
    (((flushUpdates parseAEmpty watcherDeleteThenCreate).graph).getNode
      "/w/a.ts").isSome = true := by
  decide

/-- C5 (amended): in a flush the deletes are applied before the updates,
and a delete event cancels any pending update for the file, so a file
whose pending-delete is not accompanied by a pending update is absent
after the flush provided no other pending update re-creates it as a
resolved import target.  (A file in both sets — delete followed by
create/change — is removed and then re-processed; a successful re-parse
re-adds it.) -/
theorem watcher_delete_semantics :
    (∀ (ignore : String → Bool) (s : WatcherState) (f : String),
      ignore f = false → f ∉ (handleDelete ignore s f).pendingUpdates) ∧
    (∀ (parse : String → Option ParsedFile) (s : WatcherState) (f : String),
      f ∈ s.pendingDeletes → f ∉ s.pendingUpdates →
      (∀ u ∈ s.pendingUpdates, ¬importsTarget parse u f) →
      ((flushUpdates parse s).graph).getNode f = none) := by
  constructor
  · intro ignore s f hig
    unfold handleDelete
    rw [hig]
    show f ∉ s.pendingUpdates.filter (fun q => q != f)
    intro hmem
    exact (mem_filter_ne.mp hmem).2 rfl
  · intro parse s f hdel hupd hnt
    unfold flushUpdates
    rw [getNode_eq_none_iff]
    apply foldl_preserves (P := fun gg => ∀ n ∈ gg.nodes, n.filePath ≠ f)
    · intro gg u hu hP
      have huf : u ≠ f := fun hc => hupd (hc ▸ hu)
      exact absentKey_updateFile huf (hnt u hu) hP
    · exact absentKey_after_deletes s.pendingDeletes s.graph hdel

/-- Witness for C5 (amended): a change then a delete for `/w/a.ts`; the
pending update is cancelled and the flush removes the file. -/
theorem watcher_delete_semantics_witness :
    (noIgnore "/w/a.ts" = false ∧
      "/w/a.ts" ∉ (handleDelete noIgnore (handleChange noIgnore watcherEmpty "/w/a.ts")
        "/w/a.ts").pendingUpdates) ∧
    ("/w/a.ts" ∈ watcherUpdateThenDelete.pendingDeletes ∧
      "/w/a.ts" ∉ watcherUpdateThenDelete.pendingUpdates ∧
      ((flushUpdates parseNone watcherUpdateThenDelete).graph).getNode "/w/a.ts" = none) :=
  ⟨⟨rfl, watcher_delete_semantics.1 noIgnore
      (handleChange noIgnore watcherEmpty "/w/a.ts") "/w/a.ts" rfl⟩,
    by decide,
    by decide,
    watcher_delete_semantics.2 parseNone watcherUpdateThenDelete "/w/a.ts"
      (by decide) (by decide)
      (fun u hu => absurd hu (List.not_mem_nil u))⟩

/-! ## Build guard (C6) -/

/-- C6 counterexample: the Builder does not drop a mutation requested while
a build is in flight — with a build started (`pending` is `some`), an
incoming `updateFile` request is applied and changes the builder state,
instead of being silently ignored. -/
theorem requestUpdate_during_build_not_dropped :
    builderMidBuild.pending.isSome = true ∧
    requestUpdate parseAEmpty "/w/a.ts" builderMidBuild ≠ builderMidBuild := by
  decide

/-- C6 (amended): the boolean in-progress guard lives in
`ScaffoldViewProvider.runAnalysis`, not in the Builder — a full analysis
requested while one is running is dropped (early return, not queued),
while `ImportGraphBuilder.updateFile` has no guard: an update requested
while a build is in flight is applied to the builder's graph regardless of
the in-flight work list. -/
theorem analysis_guard_and_unguarded_update :
    (∀ (workspaceRoot : String) (files : List String)
      (parse : String → Option ParsedFile) (s : ProviderState),
      s.isAnalyzing = true → runAnalysis workspaceRoot files parse s = s) ∧
    (∀ (parse : String → Option ParsedFile) (f : String) (bs : BuilderState),
      (requestUpdate parse f bs).graph = updateFile parse bs.graph f ∧
      (requestUpdate parse f bs).pending = bs.pending) ∧
    (builderMidBuild.pending.isSome = true ∧
      (requestUpdate parseAEmpty "/w/a.ts" builderMidBuild).graph
        ≠ builderMidBuild.graph) := by
  refine ⟨?_, ?_, ?_⟩
  · intro workspaceRoot files parse s h
    unfold runAnalysis
    rw [if_pos h]
  · intro parse f bs
    exact ⟨rfl, rfl⟩
  · decide

/-- Witness for C6 (amended) at a busy provider: the second analysis
request returns the state unchanged. -/
theorem analysis_guard_witness :
    providerBusy.isAnalyzing = true ∧
    runAnalysis "/w" [] parseNone providerBusy = providerBusy :=
  ⟨rfl, analysis_guard_and_unguarded_update.1 "/w" [] parseNone providerBusy rfl⟩

/-! ## Leaf files (C7) -/

/-- C7: `getLeafFiles` returns exactly the nodes whose `isLeaf` metric is
set, sorted by relative path; on the scenario graph with `z.ts` and `a.ts`
leaves and `m.ts` with one incoming edge it returns `a.ts` then `z.ts`. -/
theorem getLeafFiles_spec :
    (∀ (g : ImportGraph) (n : FileNode),
      n ∈ g.getLeafFiles ↔ n ∈ g.nodes ∧ n.metrics.isLeaf = true) ∧
    (∀ g : ImportGraph, (g.getLeafFiles).Sorted leafLe) ∧
    (leafScenarioGraph.getLeafFiles).map FileNode.relativePath = ["a.ts", "z.ts"] := by
  refine ⟨?_, ?_, ?_⟩
  · intro g n
    unfold ImportGraph.getLeafFiles ImportGraph.getAllNodes
    rw [List.mem_insertionSort, List.mem_filter]
  · intro g
    exact List.sorted_insertionSort leafLe _
  · decide

/-! ## Serialization round-trip (C8) -/

theorem foldl_mapSet_append :
    ∀ (l acc : List FileNode),
      (∀ n ∈ l, ∀ m ∈ acc, m.filePath ≠ n.filePath) →
      (l.map FileNode.filePath).Nodup →
      l.foldl mapSet acc = acc ++ l := by
  intro l
  induction l with
  | nil => intro acc _ _; simp
  | cons x xs ih =>
    intro acc hdisj hnd
    rw [List.foldl_cons]
    have hset : mapSet acc x = acc ++ [x] := by
      unfold mapSet
      have hany : acc.any (fun n => n.filePath == x.filePath) = false := by
        rw [List.any_eq_false]
        intro m hm hc
        exact hdisj x (List.mem_cons_self x xs) m hm (by simpa using hc)
      rw [hany]
      simp
    rw [hset, ih (acc ++ [x]) ?_ ?_]
    · rw [List.append_assoc]
      rfl
    · intro n hn m hm
      rcases List.mem_append.mp hm with hm' | hm'
      · exact hdisj n (List.mem_cons_of_mem x hn) m hm'
      · rw [List.mem_singleton.mp hm']
        rw [List.map_cons] at hnd
        intro hc
        exact (List.nodup_cons.mp hnd).1 (hc ▸ List.mem_map.mpr ⟨n, hn, rfl⟩)
    · rw [List.map_cons] at hnd
      exact (List.nodup_cons.mp hnd).2

/-- C8: `deserialize ∘ serialize` reconstructs any graph with unique node
keys losslessly — workspace root, node set, edges and metrics all
round-trip. -/
theorem serialize_deserialize_roundtrip (g : ImportGraph)
    (h : (g.nodes.map FileNode.filePath).Nodup) :
    ImportGraph.deserialize (g.serialize) = g := by
  obtain ⟨w, ns⟩ := g
  unfold ImportGraph.serialize ImportGraph.deserialize ImportGraph.getAllNodes
  simp only
  rw [foldl_mapSet_append ns []
    (fun n _ m hm => absurd hm (List.not_mem_nil m)) h]
  rw [List.nil_append]

/-- Witness for C8 at the two-node graph `a.ts → b.ts`. -/
theorem serialize_deserialize_roundtrip_witness :
    (graphABexample.nodes.map FileNode.filePath).Nodup ∧
    ImportGraph.deserialize (graphABexample.serialize) = graphABexample :=
  ⟨by decide, serialize_deserialize_roundtrip graphABexample (by decide)⟩

/-! ## Non-enumerated import targets (C10) -/

theorem presentKey_addEdge_target (g : ImportGraph) (a b : String) :
    ∃ n ∈ (g.addEdge a b).nodes, n.filePath = b := by
  have h := getNode_isSome_addNode_self (g.addNode a) b
  rw [getNode_isSome_iff] at h
  obtain ⟨n, hn, hk⟩ := h
  refine ⟨addEdgeTransform a b n, ?_, ?_⟩
  · rw [addEdge_nodes]
    exact List.mem_map.mpr ⟨n, hn, rfl⟩
  · rw [filePath_addEdgeTransform]
    exact hk

theorem presentKey_foldl_imports (a t : String) :
    ∀ (imps : List ImportInfo) (g : ImportGraph),
      (∃ imp ∈ imps, imp.isExternal = false ∧ imp.resolvedPath = some t) →
      ∃ n ∈ (imps.foldl (fun acc importInfo =>
          if importInfo.isExternal then acc
          else
            match importInfo.resolvedPath with
            | some resolved => acc.addEdge a resolved
            | none => acc) g).nodes, n.filePath = t := by
  intro imps
  induction imps with
  | nil =>
    rintro g ⟨imp, him, -⟩
    exact absurd him (List.not_mem_nil imp)
  | cons i is ih =>
    rintro g ⟨imp, him, hext, hres⟩
    rcases List.mem_cons.mp him with rfl | hmem
    · rw [List.foldl_cons]
      have hstep : (if imp.isExternal = true then g
          else
            match imp.resolvedPath with
            | some resolved => g.addEdge a resolved
            | none => g) = g.addEdge a t := by
        rw [hext, hres]
        rfl
      rw [hstep]
      apply foldl_preserves (P := fun gg => ∃ n ∈ gg.nodes, n.filePath = t)
      · intro gg imp2 _ hP
        dsimp only
        split
        · exact hP
        · cases imp2.resolvedPath with
          | some r => exact presentKey_addEdge hP
          | none => exact hP
      · exact presentKey_addEdge_target g a t
    · rw [List.foldl_cons]
      exact ih _ ⟨imp, hmem, hext, hres⟩

theorem presentKey_processFile_target {g : ImportGraph} {a t : String}
    {parse : String → Option ParsedFile} (h : importsTarget parse a t) :
    ∃ n ∈ (processFile parse g a).nodes, n.filePath = t := by
  obtain ⟨pf, hpf, hexists⟩ := h
  unfold processFile
  rw [hpf]
  exact presentKey_foldl_imports a t pf.imports (g.addNode a) hexists

theorem presentKey_foldl_files_target {parse : String → Option ParsedFile}
    {a t : String} (ht : importsTarget parse a t) :
    ∀ (files : List String) (g : ImportGraph), a ∈ files →
      ∃ n ∈ (files.foldl (processFile parse) g).nodes, n.filePath = t := by
  intro files
  induction files with
  | nil => intro g hmem; exact absurd hmem (List.not_mem_nil a)
  | cons y ys ih =>
    intro g hmem
    rcases List.mem_cons.mp hmem with rfl | hmem'
    · rw [List.foldl_cons]
      apply foldl_preserves (P := fun gg => ∃ n ∈ gg.nodes, n.filePath = t)
      · intro gg b _ hP
        exact presentKey_processFile hP
      · exact presentKey_processFile_target ht
    · exact ih (processFile parse g y) hmem'

/-- C10: The node set is not limited to the enumerated `*.ts`/`*.tsx`
files.  The resolver's extension list includes `.js`/`.jsx`, so a local
specifier can resolve to a `.js` path; `addEdge` then creates a node for
that path although it is never enumerated or parsed; the node is counted by
`getFileCount` and participates in `getLeafFiles` once its incoming edges
disappear. -/
theorem js_target_node_created :
    (resolveRelativeImport (fsOf ["/w/x.js"]) (fsOf ["/w/x.js"]) "/w/x"
      = some "/w/x.js") ∧
    (∀ (workspaceRoot : String) (files : List String)
      (parse : String → Option ParsedFile) (a t : String),
      a ∈ files → importsTarget parse a t →
      ((buildGraph workspaceRoot files parse).getNode t).isSome) ∧
    ((buildGraph "/w" ["/w/a.ts"] parseAImportsXJs).getFileCount = 2 ∧
      ((buildGraph "/w" ["/w/a.ts"] parseAImportsXJs).getNode "/w/x.js").isSome
        = true) ∧
    ("/w/x.js" ∈ ((updateFile parseAEmpty
        (buildGraph "/w" ["/w/a.ts"] parseAImportsXJs) "/w/a.ts").getLeafFiles).map
      FileNode.filePath) := by
  refine ⟨by decide, ?_, by decide, by decide⟩
  intro workspaceRoot files parse a t ha htarget
  unfold buildGraph
  rw [getNode_isSome_iff]
  exact presentKey_calculateMetrics (presentKey_foldl_files_target htarget files _ ha)

/-- Witness for C10's universal part: in the one-file workspace whose only
file imports `./x` resolved to `/w/x.js`, the built graph has a node for
`/w/x.js`. -/
theorem js_target_node_created_witness :
    "/w/a.ts" ∈ ["/w/a.ts"] ∧
    importsTarget parseAImportsXJs "/w/a.ts" "/w/x.js" ∧
    ((buildGraph "/w" ["/w/a.ts"] parseAImportsXJs).getNode "/w/x.js").isSome :=
  ⟨by decide,
    ⟨⟨"/w/a.ts", [importOfXJs], [], false⟩, rfl,
      importOfXJs, List.mem_singleton.mpr rfl, rfl, rfl⟩,
    js_target_node_created.2.1 "/w" ["/w/a.ts"] parseAImportsXJs "/w/a.ts" "/w/x.js"
      (by decide)
      ⟨⟨"/w/a.ts", [importOfXJs], [], false⟩, rfl,
        importOfXJs, List.mem_singleton.mpr rfl, rfl, rfl⟩⟩
